import Mathlib

/-!
# Verification of the series data-transformation pipeline (`series.ts`)

This file gives a shallow embedding, in Lean 4, of the series splitting,
keying, ordering and color-resolution code of the charting library's
`series.ts` module, and proves (or refutes) the frozen claims about it.

Modelling conventions:
* JavaScript numbers are modelled as `Int` (the code under scrutiny only
  adds, subtracts and compares them; float-specific behaviour is out of
  scope, and `NaN` produced by conversions is modelled by `Option`).
* JavaScript `Map`/`Set` are modelled as association lists / lists with
  explicit insertion-order semantics (`mapGet`, `mapSet`, `setAdd`).
* `Array.prototype.sort(cmp)` is modelled by `jsSortWith cmp`, a stable
  insertion sort: for consistent comparators this agrees with the
  ECMAScript (ES2019+) stable-sort specification.
* `string | number` values are `PrimVal`; arbitrary record values are
  `JSVal` (without float `NaN` literals in input data).
-/

/-- A JavaScript `string | number` value. -/
inductive PrimVal where
  | str (s : String)
  | num (n : Int)
deriving DecidableEq, Repr

/-- A JavaScript runtime value, as needed by the data pipeline.
`NaN`-valued *inputs* are not modelled (numbers are integers here);
`NaN` arising from conversion is modelled by `Option` below. -/
inductive JSVal where
  | null
  | undef
  | bool (b : Bool)
  | num (n : Int)
  | str (s : String)
  | obj (fields : List (String × JSVal))

/-- Template-literal rendering `${v}` of a `string | number` value. -/
def PrimVal.render : PrimVal → String
  | .str s => s
  | .num n => toString n

/-- JavaScript truthiness of a `string | number` value. -/
def PrimVal.truthy : PrimVal → Bool
  | .str s => !s.isEmpty
  | .num n => n != 0

/-- Truthiness of an optional `string | number` (`undefined` is falsy). -/
def optTruthy : Option PrimVal → Bool
  | some v => v.truthy
  | none => false

/-- `typeof v === 'number'`. -/
def PrimVal.isNum : PrimVal → Bool
  | .str _ => false
  | .num _ => true

/-- `typeof v === 'object' && v !== null`. -/
def JSVal.isObjectNonNull : JSVal → Bool
  | .obj _ => true
  | _ => false

/-- Narrow a runtime value to `string | number` (the
`typeof x === 'string' || typeof x === 'number'` check). -/
def JSVal.asPrimVal : JSVal → Option PrimVal
  | .str s => some (.str s)
  | .num n => some (.num n)
  | _ => none

/-- Digit run to natural number. -/
def digitsToNat (l : List Char) : Nat :=
  l.foldl (fun n c => n * 10 + (c.toNat - 48)) 0

/-- JavaScript `Number(string)` conversion, restricted to the signed
decimal integer fragment (`""` converts to `0`); `none` is `NaN`. -/
def strToNumber (s : String) : Option Int :=
  match s.data with
  | [] => some 0
  | '-' :: rest =>
    if rest ≠ [] ∧ rest.all (·.isDigit) then some (-(digitsToNat rest : Int)) else none
  | l => if l.all (·.isDigit) then some ((digitsToNat l : Int)) else none

/-- JavaScript `Number(value)` conversion; `none` is `NaN`. -/
def jsToNumber : JSVal → Option Int
  | .null => some 0
  | .undef => none
  | .bool b => some (if b then 1 else 0)
  | .num n => some n
  | .str s => strToNumber s
  | .obj _ => none

/-- Lexicographic comparison of character lists by code unit (the
comparison JavaScript applies to two strings). -/
def charListLt : List Char → List Char → Bool
  | [], [] => false
  | [], _ :: _ => true
  | _ :: _, [] => false
  | c1 :: r1, c2 :: r2 =>
    if c1.toNat < c2.toNat then true
    else if c2.toNat < c1.toNat then false
    else charListLt r1 r2

/-- JavaScript `a < b` on strings. -/
def strLt (a b : String) : Bool := charListLt a.data b.data

/-- JavaScript `a > b` on `string | number` values. -/
def jsGt : PrimVal → PrimVal → Bool
  | .num a, .num b => a > b
  | .str a, .str b => strLt b a
  | .num a, .str b => match strToNumber b with | some m => a > m | none => false
  | .str a, .num b => match strToNumber a with | some m => m > b | none => false

section OrderedContainers

variable {κ : Type} {ν : Type} [DecidableEq κ]

/-- JS `Map.prototype.get`. -/
def mapGet (m : List (κ × ν)) (k : κ) : Option ν :=
  match m with
  | [] => none
  | (k', v) :: rest => if k' = k then some v else mapGet rest k

/-- JS `Map.prototype.set`: replaces in place, or appends a new entry. -/
def mapSet (m : List (κ × ν)) (k : κ) (v : ν) : List (κ × ν) :=
  match m with
  | [] => [(k, v)]
  | (k', v') :: rest => if k' = k then (k, v) :: rest else (k', v') :: mapSet rest k v

/-- JS `Set.prototype.add`: appends if not already present. -/
def setAdd (s : List κ) (k : κ) : List κ :=
  if k ∈ s then s else s ++ [k]

/-- JS `new Set(iterable)`. -/
def listToSet (l : List κ) : List κ := l.foldl setAdd []

/-- JS `new Map(entries)`. -/
def mapOfList (l : List (κ × ν)) : List (κ × ν) :=
  l.foldl (fun m kv => mapSet m kv.1 kv.2) []

end OrderedContainers

section JsSort

variable {α : Type}

/-- One step of a stable insertion sort: the freshly arrived element `a`
goes after every element `b` of the already-sorted prefix with `le b a`. -/
def stableInsert (le : α → α → Bool) (a : α) : List α → List α
  | [] => [a]
  | b :: l => if le b a then b :: stableInsert le a l else a :: b :: l

/-- Model of `Array.prototype.sort(cmp)` (stable, ES2019+): elements are
inserted left to right, each after all retained elements that do not
compare strictly greater. -/
def jsSortWith (cmp : α → α → Int) (l : List α) : List α :=
  l.foldl (fun acc a => stableInsert (fun x y => decide (cmp x y ≤ 0)) a acc) []

end JsSort

/-! ## Embedding of the `series.ts` data model -/

/-- `SeriesTypes` enum (`bar`, `line`, `area`, `bubble`). -/
inductive SeriesTypes where
  | bar | line | area | bubble
deriving DecidableEq, Repr

/-- `StackMode` enum. -/
inductive StackMode where
  | percentage | wiggle | silhouette
deriving DecidableEq, Repr

/-- Scale type declarations (`XScaleType`); only the `ordinal` versus
non-`ordinal` distinction is observable in this module. -/
inductive XScaleType where
  | linear | time | log10 | sqrt | ordinal
deriving DecidableEq, Repr

/-- `BinAgg` enum of the ordinal ordering policy. -/
inductive BinAgg where
  | none | sum
deriving DecidableEq, Repr

/-- `Direction` enum of the ordinal ordering policy. -/
inductive Direction where
  | ascending | descending
deriving DecidableEq, Repr

/-- `OrderBy` policy (`specs/settings`): both fields are optional. -/
structure OrderBy where
  binAgg : Option BinAgg
  direction : Option Direction

/-- An accessor: either a field path or an accessor function.
Modelled from the spec: `utils/accessor` is outside the given sources;
§9 describes it as "a resolved value-getter that is either a field-path
lookup or an injected function `(record) -> value|nil`". -/
inductive AccessorOrFn where
  | path (k : PrimVal)
  | fn (f : JSVal → JSVal)

/-- Property read `datum[key]` on a composite record (object keys are
strings; a numeric key is coerced to its decimal rendering). Reads on
non-objects give `undefined` (they only occur after the object check). -/
def objGet (datum : JSVal) (key : PrimVal) : JSVal :=
  match datum with
  | .obj fields =>
    match fields.lookup key.render with
    | some v => v
    | none => .undef
  | _ => ( .undef)

/-- Modelled from the spec: `getAccessorValue` of `utils/accessor`
(outside the given sources) — apply an accessor function, or read the
field path. -/
def getAccessorValue (datum : JSVal) : AccessorOrFn → JSVal
  | .path k => objGet datum k
  | .fn f => f datum

/-- `BasicSeriesSpec`, restricted to the fields this module reads
(`name`, histogram and style fields are never consulted here). -/
structure BasicSeriesSpec where
  id : String
  groupId : String
  seriesType : SeriesTypes
  data : List JSVal
  xAccessor : AccessorOrFn
  yAccessors : List PrimVal
  y0Accessors : Option (List PrimVal)
  markSizeAccessor : Option AccessorOrFn
  /-- destructured with default `[]` in the source -/
  splitSeriesAccessors : List PrimVal
  xScaleType : XScaleType
  sortIndex : Option Int

/-- A small-multiples `GroupBySpec`, reduced to its `by` function
`(spec, datum) -> panelValue | nil` (the only field this module reads). -/
structure SmallMultiplesGroupBy where
  vertical : Option (BasicSeriesSpec → JSVal → Option PrimVal)
  horizontal : Option (BasicSeriesSpec → JSVal → Option PrimVal)

/-- Modelled from the spec: `DEFAULT_SINGLE_PANEL_SM_VALUE` (from
`specs`, outside the given sources) — the "single-panel sentinel"
value used when no panel function is configured; a fixed, truthy
string constant. -/
def DEFAULT_SINGLE_PANEL_SM_VALUE : PrimVal :=
  .str "__ECH_DEFAULT_SINGLE_PANEL_SM_VALUE__"

/-- The grouping fields consumed by `getSeriesKey` (the `Pick` of
`XYChartSeriesIdentifier` in its signature). -/
structure SeriesKeyFields where
  specId : String
  yAccessor : PrimVal
  splitAccessors : List (PrimVal × PrimVal)
  smVerticalAccessorValue : Option PrimVal
  smHorizontalAccessorValue : Option PrimVal
deriving DecidableEq, Repr

/-- One plotted point (`DataSeriesDatum`); the `filled` field is never
set in this module and is omitted. `smH`/`smV` are carried on the datum
as in the source (`{ x, ...cleanedDatum, smH, smV }`). -/
structure DataSeriesDatum where
  x : PrimVal
  y1 : Option Int
  y0 : Option Int
  initialY1 : Option Int
  initialY0 : Option Int
  mark : Option Int
  datum : JSVal
  smH : Option PrimVal
  smV : Option PrimVal

/-- `DataSeries`: identifier fields plus collected data and owning spec. -/
structure DataSeries where
  specId : String
  groupId : String
  seriesType : SeriesTypes
  yAccessor : PrimVal
  splitAccessors : List (PrimVal × PrimVal)
  smVerticalAccessorValue : Option PrimVal
  smHorizontalAccessorValue : Option PrimVal
  stackMode : Option StackMode
  isStacked : Bool
  seriesKeys : List PrimVal
  key : String
  data : List DataSeriesDatum
  spec : BasicSeriesSpec

/-! ## Embedding of the operations -/

/-- JS `Array.prototype.join(sep)`. -/
def joinSep (sep : String) : List String → String
  | [] => ""
  | [x] => x
  | x :: xs => x ++ sep ++ joinSep sep xs

/-- `getSeriesKey`: canonical string key of a series identifier. -/
def getSeriesKey (fields : SeriesKeyFields) (groupId : String) : String :=
  let joinedAccessors :=
    joinSep "|"
      ((jsSortWith (fun a b => if jsGt a.1 b.1 then 1 else -1) fields.splitAccessors).map
        (fun kv => kv.1.render ++ "-" ++ kv.2.render))
  let smV :=
    if optTruthy fields.smVerticalAccessorValue then
      "smV\x7b" ++ ((fields.smVerticalAccessorValue.map PrimVal.render).getD "") ++ "\x7d"
    else ""
  let smH :=
    if optTruthy fields.smHorizontalAccessorValue then
      "smH\x7b" ++ ((fields.smHorizontalAccessorValue.map PrimVal.render).getD "") ++ "\x7d"
    else ""
  "groupId\x7b" ++ groupId ++ "\x7dspec\x7b" ++ fields.specId ++ "\x7dyAccessor\x7b" ++
    fields.yAccessor.render ++ "\x7dsplitAccessors\x7b" ++ joinedAccessors ++ "\x7d" ++ smV ++ smH

/-- `getSplitAccessors`: the resolved split-accessor map of one record. -/
def getSplitAccessors (datum : JSVal) (accessors : List PrimVal) : List (PrimVal × PrimVal) :=
  if datum.isObjectNonNull then
    accessors.foldl (fun m accessor =>
      match (objGet datum accessor).asPrimVal with
      | some v => mapSet m accessor v
      | none => m) []
  else []

/-- `castToNumber`: `null`/`undefined` pass through as `null`; other
values are converted with `Number(..)`; a `NaN` result appends the raw
value to the offender list and yields `null`. -/
def castToNumber (value : JSVal) (nonNumericValues : List JSVal) :
    Option Int × List JSVal :=
  match value with
  | .null => (none, nonNumericValues)
  | .undef => (none, nonNumericValues)
  | v =>
    match jsToNumber v with
    | some n => (some n, nonNumericValues)
    | none => (none, nonNumericValues ++ [v])

/-- The value part of `extractYAndMarkFromDatum`'s result. -/
structure ExtractedValues where
  y1 : Option Int
  y0 : Option Int
  mark : Option Int
  datum : JSVal
  initialY0 : Option Int
  initialY1 : Option Int

/-- `extractYAndMarkFromDatum`: extract `y1`, `y0` and `mark`, casting
each to number-or-null and threading the offender list (mark first, then
`y1`, then `y0`, as in the source). -/
def extractYAndMarkFromDatum (datum : JSVal) (yAccessor : PrimVal)
    (nonNumericValues : List JSVal) (y0Accessor : Option PrimVal)
    (markSizeAccessor : Option AccessorOrFn) : ExtractedValues × List JSVal :=
  let markR := match markSizeAccessor with
    | none => (none, nonNumericValues)
    | some m => castToNumber (getAccessorValue datum m) nonNumericValues
  let y1R := castToNumber (objGet datum yAccessor) markR.2
  let y0R := match y0Accessor with
    | some a => if a.truthy then castToNumber (objGet datum a) y1R.2 else (none, y1R.2)
    | none => (none, y1R.2)
  (⟨y1R.1, y0R.1, markR.1, datum, y0R.1, y1R.1⟩, y0R.2)

/-- Mutable state threaded through `splitSeriesDataByAccessors`. -/
structure SplitState where
  dataSeries : List (String × DataSeries)
  xValues : List PrimVal
  smVValues : List PrimVal
  smHValues : List PrimVal
  xValueSums : List (PrimVal × Int)
  nonNumericValues : List JSVal

/-- The per-record validation prefix shared by both traversal branches:
resolve the split-accessor map, skip when splits are configured but none
resolved, skip non-composite records, skip when the x value is neither
string nor number (checks in source order). -/
def recordEntry (spec : BasicSeriesSpec) (datum : JSVal) :
    Option (List (PrimVal × PrimVal) × PrimVal) :=
  let splitAccessors := getSplitAccessors datum spec.splitSeriesAccessors
  if spec.splitSeriesAccessors.length > 0 ∧ splitAccessors.length < 1 then none
  else if !datum.isObjectNonNull then none
  else
    match (getAccessorValue datum spec.xAccessor).asPrimVal with
    | some x => some (splitAccessors, x)
    | none => none

/-- `smallMultiples?.horizontal?.by ? smallMultiples.horizontal?.by(spec, datum)
: DEFAULT_SINGLE_PANEL_SM_VALUE`. -/
def extractSmH (smallMultiples : Option SmallMultiplesGroupBy)
    (spec : BasicSeriesSpec) (datum : JSVal) : Option PrimVal :=
  match smallMultiples with
  | some sm =>
    match sm.horizontal with
    | some byFn => byFn spec datum
    | none => some DEFAULT_SINGLE_PANEL_SM_VALUE
  | none => some DEFAULT_SINGLE_PANEL_SM_VALUE

/-- Vertical counterpart of `extractSmH`. -/
def extractSmV (smallMultiples : Option SmallMultiplesGroupBy)
    (spec : BasicSeriesSpec) (datum : JSVal) : Option PrimVal :=
  match smallMultiples with
  | some sm =>
    match sm.vertical with
    | some byFn => byFn spec datum
    | none => some DEFAULT_SINGLE_PANEL_SM_VALUE
  | none => some DEFAULT_SINGLE_PANEL_SM_VALUE

/-- A record that passed the per-record checks, with its resolved split
map, x value, and the panel values extracted for it. -/
structure ValidRecord where
  datum : JSVal
  splitAccessors : List (PrimVal × PrimVal)
  x : PrimVal
  smV : Option PrimVal
  smH : Option PrimVal

/-- Result of the per-`yAccessor` body (shared verbatim by the two
traversal branches of the source): updated series map, updated offender
list, and the extracted `y1` for the running x-sum. -/
structure AccessorStepResult where
  dataSeries : List (String × DataSeries)
  nonNumericValues : List JSVal
  y1 : Option Int

/-- `const series = dataSeries.get(seriesKey); if (series) push else set`:
append the datum to the keyed series, creating it on first sight. -/
def seriesUpsert (dataSeries : List (String × DataSeries)) (seriesKey : String)
    (newDatum : DataSeriesDatum) (newSeries : DataSeries) :
    List (String × DataSeries) :=
  match mapGet dataSeries seriesKey with
  | some series =>
    mapSet dataSeries seriesKey { series with data := series.data ++ [newDatum] }
  | none => mapSet dataSeries seriesKey newSeries

/-- The per-`yAccessor` body of `splitSeriesDataByAccessors` (duplicated
verbatim in the source's two branches): extract the cleaned datum, build
identifier and key, and append to (or create) the keyed series. -/
def processYAccessor (spec : BasicSeriesSpec) (isStacked : Bool)
    (stackMode : Option StackMode) (index : Nat) (accessor : PrimVal)
    (datum : JSVal) (x : PrimVal) (splitAccessors : List (PrimVal × PrimVal))
    (smV smH : Option PrimVal) (dataSeries : List (String × DataSeries))
    (nonNumericValues : List JSVal) : AccessorStepResult :=
  let cleanedR := extractYAndMarkFromDatum datum accessor nonNumericValues
    (spec.y0Accessors.bind (fun l => l.get? index)) spec.markSizeAccessor
  let cleanedDatum := cleanedR.1
  let seriesKeys := splitAccessors.map Prod.snd ++ [accessor]
  let seriesIdentifier : SeriesKeyFields :=
    ⟨spec.id, accessor, splitAccessors, smV, smH⟩
  let seriesKey := getSeriesKey seriesIdentifier spec.groupId
  let newDatum : DataSeriesDatum :=
    ⟨x, cleanedDatum.y1, cleanedDatum.y0, cleanedDatum.initialY1,
      cleanedDatum.initialY0, cleanedDatum.mark, datum, smH, smV⟩
  ⟨seriesUpsert dataSeries seriesKey newDatum
      ⟨spec.id, spec.groupId, spec.seriesType, accessor, splitAccessors, smV, smH,
        stackMode, isStacked, seriesKeys, seriesKey, [newDatum], spec⟩,
    cleanedR.2, cleanedDatum.y1⟩

/-- The body of the legacy branch's inner `for` loop (one record for a
fixed `yAccessor`), on a validated record. -/
def legacyProcessValidDatum (spec : BasicSeriesSpec) (isStacked : Bool)
    (stackMode : Option StackMode) (index : Nat) (accessor : PrimVal)
    (st : SplitState) (r : ValidRecord) : SplitState :=
  let st := { st with xValues := st.xValues ++ [r.x] }
  let sum := (mapGet st.xValueSums r.x).getD 0
  let st := match r.smH with
    | some v => { st with smHValues := setAdd st.smHValues v }
    | none => st
  let st := match r.smV with
    | some v => { st with smVValues := setAdd st.smVValues v }
    | none => st
  let pr := processYAccessor spec isStacked stackMode index accessor r.datum r.x
    r.splitAccessors r.smV r.smH st.dataSeries st.nonNumericValues
  let sum := sum + pr.y1.getD 0
  { st with
      dataSeries := pr.dataSeries
      nonNumericValues := pr.nonNumericValues
      xValueSums := mapSet st.xValueSums r.x sum }

/-- One record of the legacy (`enableVislibSeriesSort`) branch: validate,
then run the fixed-accessor body. -/
def legacyProcessRecord (spec : BasicSeriesSpec) (isStacked : Bool)
    (stackMode : Option StackMode) (smallMultiples : Option SmallMultiplesGroupBy)
    (index : Nat) (accessor : PrimVal) (st : SplitState) (datum : JSVal) : SplitState :=
  match recordEntry spec datum with
  | none => st
  | some sx =>
    legacyProcessValidDatum spec isStacked stackMode index accessor st
      ⟨datum, sx.1, sx.2, extractSmV smallMultiples spec datum,
        extractSmH smallMultiples spec datum⟩

/-- One `yAccessor` visit of the default branch's per-record `forEach`:
run the shared per-accessor body, accumulate the running sum, and write
it back to the x-sum map. -/
def innerAccessorStep (spec : BasicSeriesSpec) (isStacked : Bool)
    (stackMode : Option StackMode) (r : ValidRecord)
    (acc : SplitState × Int) (p : Nat × PrimVal) : SplitState × Int :=
  let pr := processYAccessor spec isStacked stackMode p.1 p.2 r.datum r.x
    r.splitAccessors r.smV r.smH acc.1.dataSeries acc.1.nonNumericValues
  let sum := acc.2 + pr.y1.getD 0
  ({ acc.1 with
      dataSeries := pr.dataSeries
      nonNumericValues := pr.nonNumericValues
      xValueSums := mapSet acc.1.xValueSums r.x sum }, sum)

/-- The default branch's per-record body on a validated record: push the
x value, read the running sum once, record panel values, then visit every
`yAccessor` in order. -/
def processValidDatum (spec : BasicSeriesSpec) (isStacked : Bool)
    (stackMode : Option StackMode) (st : SplitState) (r : ValidRecord) : SplitState :=
  let st := { st with xValues := st.xValues ++ [r.x] }
  let sum := (mapGet st.xValueSums r.x).getD 0
  let st := match r.smH with
    | some v => { st with smHValues := setAdd st.smHValues v }
    | none => st
  let st := match r.smV with
    | some v => { st with smVValues := setAdd st.smVValues v }
    | none => st
  (spec.yAccessors.enum.foldl (innerAccessorStep spec isStacked stackMode r)
    (st, sum)).1

/-- One record of the default branch: validate once, then visit every
`yAccessor`, accumulating the running sum read once per record. -/
def processRecord (spec : BasicSeriesSpec) (isStacked : Bool)
    (stackMode : Option StackMode) (smallMultiples : Option SmallMultiplesGroupBy)
    (st : SplitState) (datum : JSVal) : SplitState :=
  match recordEntry spec datum with
  | none => st
  | some sx =>
    processValidDatum spec isStacked stackMode st
      ⟨datum, sx.1, sx.2, extractSmV smallMultiples spec datum,
        extractSmH smallMultiples spec datum⟩

/-- The consolidated non-numeric warning message (first argument of the
source's `Logger.warn` call; the second argument, the stringified
offender list, is elided). -/
def nonNumericWarning (specId : String) (vals : List JSVal) : String :=
  "Found non-numeric y value" ++ (if vals.length > 1 then "s" else "") ++
    " in dataset for spec \"" ++ specId ++ "\""

/-- Full result of `splitSeriesDataByAccessors`, together with the
offender list and the warnings emitted on the logger collaborator. -/
structure SplitAccResult where
  dataSeries : List (String × DataSeries)
  xValues : List PrimVal
  smVValues : List PrimVal
  smHValues : List PrimVal
  xValueSums : List (PrimVal × Int)
  nonNumericValues : List JSVal
  warnings : List String

/-- `splitSeriesDataByAccessors`: split one spec's dataset into keyed
series; `enableVislibSeriesSort` selects the accessor-major legacy
traversal, otherwise records are traversed record-major. -/
def splitSeriesDataByAccessors (spec : BasicSeriesSpec)
    (xValueSums : List (PrimVal × Int)) (isStacked : Bool)
    (enableVislibSeriesSort : Bool) (stackMode : Option StackMode)
    (smallMultiples : Option SmallMultiplesGroupBy) : SplitAccResult :=
  let st0 : SplitState := ⟨[], [], [], [], xValueSums, []⟩
  let st :=
    if enableVislibSeriesSort then
      spec.yAccessors.enum.foldl (fun st p =>
        spec.data.foldl (legacyProcessRecord spec isStacked stackMode smallMultiples p.1 p.2) st) st0
    else
      spec.data.foldl (processRecord spec isStacked stackMode smallMultiples) st0
  let warnings :=
    if st.nonNumericValues.length > 0 then [nonNumericWarning spec.id st.nonNumericValues]
    else []
  ⟨st.dataSeries, st.xValues, st.smVValues, st.smHValues, st.xValueSums,
    st.nonNumericValues, warnings⟩

/-- `XYChartSeriesIdentifier` as stored in the series collection: the
`DataSeries` with its `data` field stripped off
(`const { data, ...seriesIdentifier } = series`). -/
structure SeriesIdentifierNoData where
  specId : String
  groupId : String
  seriesType : SeriesTypes
  yAccessor : PrimVal
  splitAccessors : List (PrimVal × PrimVal)
  smVerticalAccessorValue : Option PrimVal
  smHorizontalAccessorValue : Option PrimVal
  stackMode : Option StackMode
  isStacked : Bool
  seriesKeys : List PrimVal
  key : String
  spec : BasicSeriesSpec

/-- `const { data, ...seriesIdentifier } = series`. -/
def DataSeries.stripData (s : DataSeries) : SeriesIdentifierNoData :=
  ⟨s.specId, s.groupId, s.seriesType, s.yAccessor, s.splitAccessors,
    s.smVerticalAccessorValue, s.smHorizontalAccessorValue, s.stackMode,
    s.isStacked, s.seriesKeys, s.key, s.spec⟩

/-- `SeriesCollectionValue` (the `lastValue` field, typed outside the
given sources and never written in this module, is omitted). -/
structure SeriesCollectionValue where
  banded : Bool
  specSortIndex : Option Int
  seriesIdentifier : SeriesIdentifierNoData

/-- `getSortedOrdinalXValues`: reorder the ordinal domain per the
optional ordering policy (`none` keeps the first-encountered order; the
`sum` and default cases re-sort by accumulated sums, the sign flipped
for non-ascending directions). -/
def getSortedOrdinalXValues (xValues : List PrimVal)
    (xValueSums : List (PrimVal × Int)) (orderOrdinalBinsBy : Option OrderBy) :
    List PrimVal :=
  match orderOrdinalBinsBy with
  | Option.none => xValues
  | some ob =>
    match ob.binAgg with
    | some BinAgg.none => xValues
    | _ =>
      listToSet (jsSortWith (fun v1 v2 =>
        (if ob.direction = some Direction.ascending then 1 else -1) *
          ((mapGet xValueSums v1).getD 0 - (mapGet xValueSums v2).getD 0)) xValues)

/-- Aggregation state of the `for (const spec of seriesSpecs)` loop in
`getDataSeriesFromSpecs`. -/
structure GDSState where
  globalDataSeries : List DataSeries
  seriesCollection : List (String × SeriesCollectionValue)
  xValueSums : List (PrimVal × Int)
  globalXValues : List PrimVal
  globalSMVValues : List PrimVal
  globalSMHValues : List PrimVal
  isNumberArray : Bool
  isOrdinalScale : Bool

/-- Result record of `getDataSeriesFromSpecs`. -/
structure GetDataSeriesResult where
  dataSeries : List DataSeries
  seriesCollection : List (String × SeriesCollectionValue)
  xValues : List PrimVal
  smVValues : List PrimVal
  smHValues : List PrimVal
  fallbackScale : Option XScaleType

/-- The body of the per-spec loop of `getDataSeriesFromSpecs`. -/
def gdsStep (enableVislibSeriesSort : Bool)
    (smallMultiples : Option SmallMultiplesGroupBy)
    (deselectedDataSeries : List String)
    (specIsStacked : BasicSeriesSpec → Bool)
    (specStackMode : BasicSeriesSpec → Option StackMode)
    (st : GDSState) (spec : BasicSeriesSpec) : GDSState :=
  let isOrdinalScale := st.isOrdinalScale || (spec.xScaleType = XScaleType.ordinal)
  let r := splitSeriesDataByAccessors spec st.xValueSums (specIsStacked spec)
    enableVislibSeriesSort (specStackMode spec) smallMultiples
  let filteredDataSeries :=
    if deselectedDataSeries.length > 0 then
      (r.dataSeries.map Prod.snd).filter (fun s => !deselectedDataSeries.contains s.key)
    else r.dataSeries.map Prod.snd
  let globalDataSeries := st.globalDataSeries ++ filteredDataSeries
  let banded := match spec.y0Accessors with
    | some l => l.length > 0
    | Option.none => false
  let seriesCollection := r.dataSeries.foldl (fun sc kv =>
    mapSet sc kv.1 ⟨banded, spec.sortIndex, kv.2.stripData⟩) st.seriesCollection
  let inaGx := r.xValues.foldl (fun (p : Bool × List PrimVal) xValue =>
    (p.1 && xValue.isNum, setAdd p.2 xValue)) (st.isNumberArray, st.globalXValues)
  { globalDataSeries := globalDataSeries
    seriesCollection := seriesCollection
    xValueSums := r.xValueSums
    globalXValues := inaGx.2
    globalSMVValues := r.smVValues.foldl setAdd st.globalSMVValues
    globalSMHValues := r.smHValues.foldl setAdd st.globalSMHValues
    isNumberArray := inaGx.1
    isOrdinalScale := isOrdinalScale }

/-- `getDataSeriesFromSpecs`: merge every spec's split result into the
global series list, collection, domains and fallback-scale flag.
The stacking lookup (`groupSeriesByYGroup` of `domains/y_domain`, outside
the given sources) is abstracted by the `specIsStacked`/`specStackMode`
parameters; it only feeds the `isStacked`/`stackMode` metadata. -/
def getDataSeriesFromSpecs (seriesSpecs : List BasicSeriesSpec)
    (deselectedDataSeries : List String) (orderOrdinalBinsBy : Option OrderBy)
    (enableVislibSeriesSort : Bool) (smallMultiples : Option SmallMultiplesGroupBy)
    (specIsStacked : BasicSeriesSpec → Bool)
    (specStackMode : BasicSeriesSpec → Option StackMode) : GetDataSeriesResult :=
  let st0 : GDSState := ⟨[], [], [], [], [], [], true, false⟩
  let st := seriesSpecs.foldl
    (gdsStep enableVislibSeriesSort smallMultiples deselectedDataSeries
      specIsStacked specStackMode) st0
  let xValues :=
    if st.isOrdinalScale || !st.isNumberArray then
      getSortedOrdinalXValues st.globalXValues st.xValueSums orderOrdinalBinsBy
    else
      listToSet (jsSortWith (fun a b =>
        match a, b with
        | PrimVal.num a, PrimVal.num b => a - b
        | _, _ => 0) st.globalXValues)
  { dataSeries := st.globalDataSeries
    seriesCollection := st.seriesCollection
    xValues := xValues
    smVValues := st.globalSMVValues
    smHValues := st.globalSMHValues
    fallbackScale :=
      if !st.isOrdinalScale && !st.isNumberArray then some XScaleType.ordinal
      else Option.none }

/-- `getSortIndex`: a missing explicit sort index sorts as `total`. -/
def getSortIndex (v : SeriesCollectionValue) (total : Nat) : Int :=
  match v.specSortIndex with
  | some i => i
  | Option.none => total

/-- `getSortedDataSeriesColorsValuesMap`: rebuild the collection map in
`getSortIndex` order. -/
def getSortedDataSeriesColorsValuesMap
    (seriesCollection : List (String × SeriesCollectionValue)) :
    List (String × SeriesCollectionValue) :=
  mapOfList (jsSortWith (fun a b =>
    getSortIndex a.2 seriesCollection.length - getSortIndex b.2 seriesCollection.length)
    seriesCollection)

/-- `ColorOverrides` of the chart state: `temporary` and `persisted`
override records keyed by series key. -/
structure ColorOverrides where
  temporary : List (String × String)
  persisted : List (String × String)

/-- The chart theme's `ColorConfig`, reduced to the consulted field. -/
structure ColorConfig where
  vizColors : List String

/-- JS truthiness of an optional string (`undefined` and `''` falsy). -/
def jsStrTruthy : Option String → Bool
  | some s => !s.isEmpty
  | Option.none => false

/-- `getHighestOverride`: first truthy of `temporary[key]`,
`customColors.get(key)`, then `persisted[key]` (returned unchecked). -/
def getHighestOverride (key : String) (customColors : List (String × String))
    (overrides : ColorOverrides) : Option String :=
  let color := mapGet overrides.temporary key
  if jsStrTruthy color then color
  else
    let color := mapGet customColors key
    if jsStrTruthy color then color
    else mapGet overrides.persisted key

/-- The loop body of `getSeriesColors` (one `forEach` iteration):
assign the highest override when truthy, otherwise the palette color at
`counter % vizColors.length` (`none` models the `undefined` stored when
the palette is empty), then advance the counter. -/
def getSeriesColorsStep (chartColors : ColorConfig)
    (customColors : List (String × String)) (overrides : ColorOverrides)
    (acc : List (String × Option String) × Nat)
    (kv : String × SeriesCollectionValue) : List (String × Option String) × Nat :=
  let colorOverride := getHighestOverride kv.1 customColors overrides
  let color :=
    if jsStrTruthy colorOverride then colorOverride
    else chartColors.vizColors.get? (acc.2 % chartColors.vizColors.length)
  (mapSet acc.1 kv.1 color, acc.2 + 1)

/-- `getSeriesColors`: walk the collection in order with a counter,
resolving each series' color through `getSeriesColorsStep`. -/
def getSeriesColors (seriesCollection : List (String × SeriesCollectionValue))
    (chartColors : ColorConfig) (customColors : List (String × String))
    (overrides : ColorOverrides) : List (String × Option String) :=
  (seriesCollection.foldl (getSeriesColorsStep chartColors customColors overrides)
    ([], 0)).1

/-! ## Helper lemmas: containers -/

section ContainerLemmas

variable {κ ν : Type} [DecidableEq κ]

theorem mapGet_mapSet (m : List (κ × ν)) (k k' : κ) (v : ν) :
    mapGet (mapSet m k v) k' = if k = k' then some v else mapGet m k' := by
  induction m with
  | nil => by_cases h : k = k' <;> simp [mapGet, mapSet, h]
  | cons hd tl ih =>
    obtain ⟨k0, v0⟩ := hd
    by_cases h0 : k0 = k
    · subst h0
      by_cases h : k0 = k' <;> simp [mapGet, mapSet, h]
    · by_cases h : k0 = k'
      · subst h
        have : ¬ k = k0 := fun hh => h0 hh.symm
        simp [mapGet, mapSet, h0, this]
      · simp [mapGet, mapSet, h0, h, ih]

theorem mapGet_mapSet_self (m : List (κ × ν)) (k : κ) (v : ν) :
    mapGet (mapSet m k v) k = some v := by
  simp [mapGet_mapSet]

theorem mapGet_mapSet_ne (m : List (κ × ν)) {k k' : κ} (v : ν) (h : k ≠ k') :
    mapGet (mapSet m k v) k' = mapGet m k' := by
  simp [mapGet_mapSet, h]

theorem mapSet_mapSet_self (m : List (κ × ν)) (k : κ) (a b : ν) :
    mapSet (mapSet m k a) k b = mapSet m k b := by
  induction m with
  | nil => simp [mapSet]
  | cons hd tl ih =>
    obtain ⟨k0, v0⟩ := hd
    by_cases h0 : k0 = k <;> simp [mapSet, h0, ih]

theorem mapSet_fst (m : List (κ × ν)) (k : κ) (v : ν) :
    (mapSet m k v).map Prod.fst =
      if k ∈ m.map Prod.fst then m.map Prod.fst else m.map Prod.fst ++ [k] := by
  induction m with
  | nil => simp [mapSet]
  | cons hd tl ih =>
    obtain ⟨k0, v0⟩ := hd
    by_cases h0 : k0 = k
    · subst h0; simp [mapSet]
    · have hne : ¬ k = k0 := fun hh => h0 hh.symm
      by_cases hk : k ∈ tl.map Prod.fst <;>
        simp [mapSet, h0, ih, hk, hne]

theorem mem_setAdd (s : List κ) (k x : κ) :
    x ∈ setAdd s k ↔ x ∈ s ∨ x = k := by
  by_cases h : k ∈ s
  · constructor
    · intro hx; exact Or.inl (by simpa [setAdd, h] using hx)
    · rintro (hx | rfl) <;> simp_all [setAdd]
  · simp [setAdd, h, or_comm]

theorem mem_foldl_setAdd (l init : List κ) (x : κ) :
    x ∈ l.foldl setAdd init ↔ x ∈ init ∨ x ∈ l := by
  induction l generalizing init with
  | nil => simp
  | cons a l ih =>
    simp only [List.foldl_cons, ih, mem_setAdd, List.mem_cons]
    tauto

theorem mem_listToSet (l : List κ) (x : κ) : x ∈ listToSet l ↔ x ∈ l := by
  simp [listToSet, mem_foldl_setAdd]

theorem foldl_setAdd_of_nodup (l : List κ) (init : List κ) (hn : l.Nodup)
    (hd : ∀ x ∈ l, x ∉ init) : l.foldl setAdd init = init ++ l := by
  induction l generalizing init with
  | nil => simp
  | cons a l ih =>
    have ha : a ∉ init := hd a (by simp)
    simp only [List.foldl_cons, setAdd, ha, if_false]
    rw [ih (init ++ [a]) hn.of_cons]
    · simp
    · intro x hx
      simp only [List.mem_append, List.mem_singleton]
      rintro (hx' | rfl)
      · exact hd x (by simp [hx]) hx'
      · exact (List.nodup_cons.mp hn).1 hx

theorem listToSet_eq_self {l : List κ} (hn : l.Nodup) : listToSet l = l := by
  simpa using foldl_setAdd_of_nodup l [] hn (by simp)

end ContainerLemmas

/-! ## Helper lemmas: boolean folds -/

theorem foldl_bor_eq {α : Type} (l : List α) (p : α → Bool) (b0 : Bool) :
    l.foldl (fun b a => b || p a) b0 = (b0 || l.any p) := by
  induction l generalizing b0 with
  | nil => simp
  | cons a l ih => simp [ih, Bool.or_assoc]

theorem foldl_band_eq {α : Type} (l : List α) (p : α → Bool) (b0 : Bool) :
    l.foldl (fun b a => b && p a) b0 = (b0 && l.all p) := by
  induction l generalizing b0 with
  | nil => simp
  | cons a l ih => simp [ih, Bool.and_assoc]

/-! ## Helper lemmas: the stable sort -/

section SortLemmas

variable {α : Type}

theorem stableInsert_perm (le : α → α → Bool) (a : α) (l : List α) :
    (stableInsert le a l).Perm (a :: l) := by
  induction l with
  | nil => exact List.Perm.refl _
  | cons b l ih =>
    simp only [stableInsert]
    by_cases h : le b a = true
    · rw [if_pos h]
      exact (ih.cons b).trans (List.Perm.swap a b l)
    · rw [if_neg h]

theorem foldl_stableInsert_perm (le : α → α → Bool) (l acc : List α) :
    (l.foldl (fun acc a => stableInsert le a acc) acc).Perm (acc ++ l) := by
  induction l generalizing acc with
  | nil => simp
  | cons a l ih =>
    simp only [List.foldl_cons]
    refine ((ih _).trans ?_)
    refine ((stableInsert_perm le a acc).append_right l).trans ?_
    exact List.perm_middle.symm

theorem jsSortWith_perm (cmp : α → α → Int) (l : List α) :
    (jsSortWith cmp l).Perm l := by
  simpa [jsSortWith] using foldl_stableInsert_perm (fun x y => decide (cmp x y ≤ 0)) l []

theorem pairwise_stableInsert (le : α → α → Bool) (P : α → Prop)
    (htot : ∀ x y, P x → P y → (le x y = true ∨ le y x = true))
    (htrans : ∀ x y z, P x → P y → P z → le x y = true → le y z = true → le x z = true)
    (a : α) (ha : P a) (l : List α) (hl : ∀ x ∈ l, P x)
    (hp : l.Pairwise (fun x y => le x y = true)) :
    (stableInsert le a l).Pairwise (fun x y => le x y = true) := by
  induction l with
  | nil => simp [stableInsert]
  | cons b l ih =>
    have hb : P b := hl b (by simp)
    rw [List.pairwise_cons] at hp
    simp only [stableInsert]
    by_cases h : le b a = true
    · rw [if_pos h, List.pairwise_cons]
      refine ⟨?_, ih (fun x hx => hl x (by simp [hx])) hp.2⟩
      intro x hx
      rcases List.mem_cons.mp ((stableInsert_perm le a l).mem_iff.mp hx) with rfl | hx2
      · exact h
      · exact hp.1 x hx2
    · have hab : le a b = true := by
        rcases htot a b ha hb with h2 | h2
        · exact h2
        · exact absurd h2 h
      rw [if_neg h, List.pairwise_cons]
      refine ⟨?_, List.pairwise_cons.mpr ⟨hp.1, hp.2⟩⟩
      intro x hx
      rcases List.mem_cons.mp hx with rfl | hx2
      · exact hab
      · exact htrans a b x ha hb (hl x (by simp [hx2])) hab (hp.1 x hx2)

theorem pairwise_foldl_stableInsert (le : α → α → Bool) (P : α → Prop)
    (htot : ∀ x y, P x → P y → (le x y = true ∨ le y x = true))
    (htrans : ∀ x y z, P x → P y → P z → le x y = true → le y z = true → le x z = true)
    (l : List α) (hl : ∀ x ∈ l, P x) (acc : List α) (hacc : ∀ x ∈ acc, P x)
    (hp : acc.Pairwise (fun x y => le x y = true)) :
    (l.foldl (fun acc a => stableInsert le a acc) acc).Pairwise
      (fun x y => le x y = true) := by
  induction l generalizing acc with
  | nil => simpa
  | cons a l ih =>
    simp only [List.foldl_cons]
    refine ih (fun x hx => hl x (by simp [hx])) _ ?_ ?_
    · intro x hx
      rcases List.mem_cons.mp ((stableInsert_perm le a acc).mem_iff.mp hx) with rfl | hx2
      · exact hl _ (by simp)
      · exact hacc x hx2
    · exact pairwise_stableInsert le P htot htrans a (hl a (by simp)) acc hacc hp

theorem pairwise_jsSortWith (cmp : α → α → Int) (P : α → Prop)
    (htot : ∀ x y, P x → P y → (cmp x y ≤ 0 ∨ cmp y x ≤ 0))
    (htrans : ∀ x y z, P x → P y → P z → cmp x y ≤ 0 → cmp y z ≤ 0 → cmp x z ≤ 0)
    (l : List α) (hl : ∀ x ∈ l, P x) :
    (jsSortWith cmp l).Pairwise (fun a b => cmp a b ≤ 0) := by
  have h := pairwise_foldl_stableInsert (fun x y => decide (cmp x y ≤ 0)) P
    (by intro x y hx hy; rcases htot x y hx hy with h | h <;> simp [h])
    (by intro x y z hx hy hz h1 h2
        simp only [decide_eq_true_eq] at h1 h2 ⊢
        exact htrans x y z hx hy hz h1 h2)
    l hl [] (by simp) (by simp)
  rw [jsSortWith]
  exact h.imp (by intro a b hab; simpa using hab)

end SortLemmas

/-! ## Claim C3: numeric coercion and the consolidated warning -/

theorem splitSeriesDataByAccessors_warnings_eq (spec : BasicSeriesSpec)
    (sums : List (PrimVal × Int)) (isStacked legacy : Bool)
    (stackMode : Option StackMode) (sm : Option SmallMultiplesGroupBy) :
    (splitSeriesDataByAccessors spec sums isStacked legacy stackMode sm).warnings =
      (if (splitSeriesDataByAccessors spec sums isStacked legacy stackMode sm).nonNumericValues.length > 0
       then [nonNumericWarning spec.id
         (splitSeriesDataByAccessors spec sums isStacked legacy stackMode sm).nonNumericValues]
       else []) := rfl

/-- **C3.** For every raw value extracted for a y/y0/mark field: `null` and
`undefined` become `null` without being recorded as an offender; any other
value is converted with `Number(..)` and kept when the conversion succeeds;
when the conversion yields `NaN`, the original raw value is appended to the
offenders list and the field becomes `null` (extraction is a total function
by construction, so it never raises); and a split whose offenders list is
non-empty emits exactly one consolidated warning, which is the message
naming the spec id, while an empty offenders list emits no warning. -/
theorem castToNumber_coercion_and_single_warning :
    (∀ acc, castToNumber JSVal.null acc = (none, acc))
  ∧ (∀ acc, castToNumber JSVal.undef acc = (none, acc))
  ∧ (∀ v acc n, v ≠ JSVal.null → jsToNumber v = some n →
      castToNumber v acc = (some n, acc))
  ∧ (∀ v acc, v ≠ JSVal.null → v ≠ JSVal.undef → jsToNumber v = none →
      castToNumber v acc = (none, acc ++ [v]))
  ∧ (∀ spec sums isStacked legacy stackMode sm,
      ((splitSeriesDataByAccessors spec sums isStacked legacy stackMode sm).warnings.length = 1
        ↔ (splitSeriesDataByAccessors spec sums isStacked legacy stackMode sm).nonNumericValues ≠ [])
      ∧ (splitSeriesDataByAccessors spec sums isStacked legacy stackMode sm).warnings =
          (if (splitSeriesDataByAccessors spec sums isStacked legacy stackMode sm).nonNumericValues.length > 0
           then [nonNumericWarning spec.id
             (splitSeriesDataByAccessors spec sums isStacked legacy stackMode sm).nonNumericValues]
           else [])) := by
  refine ⟨fun acc => rfl, fun acc => rfl, ?_, ?_, ?_⟩
  · intro v acc n hnull hconv
    cases v with
    | null => exact absurd rfl hnull
    | undef => simp [jsToNumber] at hconv
    | bool b => simp only [castToNumber]; rw [hconv]
    | num m => simp only [castToNumber]; rw [hconv]
    | str s => simp only [castToNumber]; rw [hconv]
    | obj fs => simp [jsToNumber] at hconv
  · intro v acc hnull hundef hconv
    cases v with
    | null => exact absurd rfl hnull
    | undef => exact absurd rfl hundef
    | bool b => simp [jsToNumber] at hconv
    | num m => simp [jsToNumber] at hconv
    | str s => simp only [castToNumber]; rw [hconv]
    | obj fs => simp only [castToNumber]; rw [hconv]
  · intro spec sums isStacked legacy stackMode sm
    refine ⟨?_, splitSeriesDataByAccessors_warnings_eq spec sums isStacked legacy stackMode sm⟩
    rw [splitSeriesDataByAccessors_warnings_eq spec sums isStacked legacy stackMode sm]
    cases hnn : (splitSeriesDataByAccessors spec sums isStacked legacy stackMode sm).nonNumericValues with
    | nil => simp
    | cons a l => simp

theorem castToNumber_coercion_and_single_warning_witness :
    castToNumber (JSVal.str "5") [] = (some 5, [])
  ∧ castToNumber (JSVal.str "bad") [] = (none, [JSVal.str "bad"]) :=
  ⟨castToNumber_coercion_and_single_warning.2.2.1 (JSVal.str "5") [] 5
      (by simp) (by decide),
    castToNumber_coercion_and_single_warning.2.2.2.1 (JSVal.str "bad") []
      (by simp) (by simp) (by decide)⟩

/-! ## Claim C5: the ordinal orderer -/

/-- **C5.** `getSortedOrdinalXValues` leaves the domain exactly in
first-encountered order with no policy or aggregation `none`; for `sum`
(or an absent aggregation inside a supplied policy, the `default` case)
it re-sorts the domain by the accumulated sums, the comparison sign
flipped for non-ascending directions; and the spec's concrete example
holds: domain `["c","a","b"]`, sums `{a:10, b:5, c:1}`, policy
`{sum, ascending}` yields `["c","b","a"]`. -/
theorem getSortedOrdinalXValues_spec :
    (∀ xs sums, getSortedOrdinalXValues xs sums Option.none = xs)
  ∧ (∀ xs sums dir, getSortedOrdinalXValues xs sums (some ⟨some BinAgg.none, dir⟩) = xs)
  ∧ (∀ xs sums (ob : OrderBy), ob.binAgg ≠ some BinAgg.none → xs.Nodup →
      (getSortedOrdinalXValues xs sums (some ob)).Perm xs
      ∧ (ob.direction = some Direction.ascending →
          (getSortedOrdinalXValues xs sums (some ob)).Pairwise
            (fun v1 v2 => (mapGet sums v1).getD 0 ≤ (mapGet sums v2).getD 0))
      ∧ (ob.direction ≠ some Direction.ascending →
          (getSortedOrdinalXValues xs sums (some ob)).Pairwise
            (fun v1 v2 => (mapGet sums v2).getD 0 ≤ (mapGet sums v1).getD 0)))
  ∧ getSortedOrdinalXValues [PrimVal.str "c", PrimVal.str "a", PrimVal.str "b"]
      [(PrimVal.str "a", 10), (PrimVal.str "b", 5), (PrimVal.str "c", 1)]
      (some ⟨some BinAgg.sum, some Direction.ascending⟩)
      = [PrimVal.str "c", PrimVal.str "b", PrimVal.str "a"] := by
  refine ⟨fun xs sums => rfl, fun xs sums dir => rfl, ?_, by decide⟩
  intro xs sums ob hb hnd
  obtain ⟨ba, dir⟩ := ob
  have hresult : getSortedOrdinalXValues xs sums (some ⟨ba, dir⟩) =
      listToSet (jsSortWith (fun v1 v2 =>
        (if dir = some Direction.ascending then 1 else -1) *
          ((mapGet sums v1).getD 0 - (mapGet sums v2).getD 0)) xs) := by
    cases ba with
    | none =>
      cases dir <;> rfl
    | some b =>
      cases b with
      | none => exact absurd rfl hb
      | sum => cases dir <;> rfl
  set cmp := fun v1 v2 =>
    (if dir = some Direction.ascending then 1 else -1) *
      ((mapGet sums v1).getD 0 - (mapGet sums v2).getD 0) with hcmp
  have hperm : (jsSortWith cmp xs).Perm xs := jsSortWith_perm cmp xs
  have hnd2 : (jsSortWith cmp xs).Nodup := hperm.nodup_iff.mpr hnd
  have hset : listToSet (jsSortWith cmp xs) = jsSortWith cmp xs := listToSet_eq_self hnd2
  have hpw : (jsSortWith cmp xs).Pairwise (fun a b => cmp a b ≤ 0) := by
    refine pairwise_jsSortWith cmp (fun _ => True) ?_ ?_ xs (fun x _ => trivial)
    · intro x y _ _
      by_cases hd : dir = some Direction.ascending <;>
        simp only [hcmp, hd, if_true, if_false, reduceIte, one_mul, neg_one_mul] <;> omega
    · intro x y z _ _ _ h1 h2
      by_cases hd : dir = some Direction.ascending <;>
        simp only [hcmp, hd, if_true, if_false, reduceIte, one_mul, neg_one_mul] at h1 h2 ⊢ <;>
        omega
  refine ⟨?_, ?_, ?_⟩
  · rw [hresult, hset]; exact hperm
  · intro hd
    have hd2 : dir = some Direction.ascending := hd
    rw [hresult, hset]
    refine hpw.imp ?_
    intro a b hab
    simp only [hcmp] at hab
    rw [if_pos hd2, one_mul] at hab
    omega
  · intro hd
    have hd2 : ¬ dir = some Direction.ascending := hd
    rw [hresult, hset]
    refine hpw.imp ?_
    intro a b hab
    simp only [hcmp] at hab
    rw [if_neg hd2, neg_one_mul] at hab
    omega

theorem getSortedOrdinalXValues_spec_witness :
    (getSortedOrdinalXValues [PrimVal.str "c", PrimVal.str "a", PrimVal.str "b"]
      [(PrimVal.str "a", 10), (PrimVal.str "b", 5), (PrimVal.str "c", 1)]
      (some ⟨some BinAgg.sum, some Direction.ascending⟩)).Perm
      [PrimVal.str "c", PrimVal.str "a", PrimVal.str "b"] :=
  (getSortedOrdinalXValues_spec.2.2.1 _ _ ⟨some BinAgg.sum, some Direction.ascending⟩
    (by decide) (by decide)).1

/-! ## Claim C8: ordering of the series collection by sort index -/

theorem mapSet_of_not_mem {κ ν : Type} [DecidableEq κ] {m : List (κ × ν)} {k : κ}
    (v : ν) (h : k ∉ m.map Prod.fst) : mapSet m k v = m ++ [(k, v)] := by
  induction m with
  | nil => rfl
  | cons hd tl ih =>
    obtain ⟨k0, v0⟩ := hd
    have h0 : ¬ k0 = k := by
      intro hk; exact h (by simp [hk])
    simp only [mapSet, h0, if_false, List.cons_append, List.cons.injEq, true_and]
    exact ih (fun hk => h (by simp [hk]))

theorem foldl_mapSet_of_nodup {κ ν : Type} [DecidableEq κ] (l : List (κ × ν))
    (init : List (κ × ν)) (hn : (l.map Prod.fst).Nodup)
    (hd : ∀ k ∈ l.map Prod.fst, k ∉ init.map Prod.fst) :
    l.foldl (fun m kv => mapSet m kv.1 kv.2) init = init ++ l := by
  induction l generalizing init with
  | nil => simp
  | cons a l ih =>
    have hn2 : a.1 ∉ l.map Prod.fst ∧ (l.map Prod.fst).Nodup := by
      rw [List.map_cons, List.nodup_cons] at hn
      exact hn
    have ha : a.1 ∉ init.map Prod.fst := hd a.1 (by simp)
    have hd2 : ∀ k ∈ l.map Prod.fst, k ∉ (init ++ [a]).map Prod.fst := by
      intro k hk
      simp only [List.map_append, List.mem_append]
      rintro (hk2 | hk2)
      · exact hd k (by simp [hk]) hk2
      · have hka : k = a.1 := by simpa using hk2
        subst hka
        exact hn2.1 hk
    simp only [List.foldl_cons, mapSet_of_not_mem a.2 ha]
    rw [ih (init ++ [a]) hn2.2 hd2]
    simp

theorem mapOfList_eq_self {κ ν : Type} [DecidableEq κ] {l : List (κ × ν)}
    (h : (l.map Prod.fst).Nodup) : mapOfList l = l := by
  simpa [mapOfList] using foldl_mapSet_of_nodup l [] h (by simp)

/-- Fixture spec used by concrete witnesses and counterexamples. -/
def fixtureSpec : BasicSeriesSpec :=
  { id := "s", groupId := "g", seriesType := SeriesTypes.bar, data := [],
    xAccessor := AccessorOrFn.path (PrimVal.str "x"),
    yAccessors := [PrimVal.str "y"], y0Accessors := none,
    markSizeAccessor := none, splitSeriesAccessors := [],
    xScaleType := XScaleType.linear, sortIndex := none }

/-- Fixture stripped identifier for concrete collection entries. -/
def fixtureIdent : SeriesIdentifierNoData :=
  ⟨"s", "g", SeriesTypes.bar, PrimVal.str "y", [], none, none, none, false,
    [PrimVal.str "y"], "k", fixtureSpec⟩

/-- A collection entry with explicit sort index `5`. -/
def scvIndexed : SeriesCollectionValue := ⟨false, some 5, fixtureIdent⟩

/-- A collection entry without an explicit sort index. -/
def scvNoIndex : SeriesCollectionValue := ⟨false, none, fixtureIdent⟩

/-- **C8 (counterexample).** In a two-entry collection where `"k1"` has
explicit sort index `5` and `"k2"` has none, the sorted collection places
the index-less `"k2"` *before* `"k1"`: a missing index is keyed as the
collection size (here `2`), so it does not sort after every series that
has an explicit index. -/
theorem getSortedDataSeriesColorsValuesMap_counterexample :
    scvIndexed.specSortIndex = some 5
  ∧ scvNoIndex.specSortIndex = Option.none
  ∧ (getSortedDataSeriesColorsValuesMap [("k1", scvIndexed), ("k2", scvNoIndex)]).map
      Prod.fst = ["k2", "k1"] :=
  ⟨rfl, rfl, rfl⟩

/-- **C8 (amended).** In the sorted collection, entries appear in
non-decreasing `getSortIndex` order, where a missing explicit index is
keyed as the collection size: series with explicit indices are ordered by
those indices, and a series with no explicit index is placed after every
series whose explicit index is smaller than the collection size (an
explicit index `≥` the collection size may precede it, as the
counterexample shows). The sorted collection is a permutation of the
input. -/
theorem getSortedDataSeriesColorsValuesMap_sorted
    (seriesCollection : List (String × SeriesCollectionValue))
    (hnd : (seriesCollection.map Prod.fst).Nodup) :
    (getSortedDataSeriesColorsValuesMap seriesCollection).Perm seriesCollection
  ∧ (getSortedDataSeriesColorsValuesMap seriesCollection).Pairwise
      (fun a b => getSortIndex a.2 seriesCollection.length ≤
        getSortIndex b.2 seriesCollection.length)
  ∧ (∀ i j a b ma mb, i < j →
      (getSortedDataSeriesColorsValuesMap seriesCollection).get? i = some a →
      (getSortedDataSeriesColorsValuesMap seriesCollection).get? j = some b →
      a.2.specSortIndex = some ma → b.2.specSortIndex = some mb → ma ≤ mb)
  ∧ (∀ i j a b mb, 
      (getSortedDataSeriesColorsValuesMap seriesCollection).get? i = some a →
      (getSortedDataSeriesColorsValuesMap seriesCollection).get? j = some b →
      a.2.specSortIndex = Option.none → b.2.specSortIndex = some mb →
      mb < (seriesCollection.length : Int) → j < i) := by
  set n := seriesCollection.length with hn
  set cmp := fun (a b : String × SeriesCollectionValue) =>
    getSortIndex a.2 n - getSortIndex b.2 n with hcmp
  have hperm : (jsSortWith cmp seriesCollection).Perm seriesCollection :=
    jsSortWith_perm cmp seriesCollection
  have heq : getSortedDataSeriesColorsValuesMap seriesCollection =
      jsSortWith cmp seriesCollection := by
    rw [getSortedDataSeriesColorsValuesMap]
    exact mapOfList_eq_self ((hperm.map Prod.fst).nodup_iff.mpr hnd)
  have hpw0 : (jsSortWith cmp seriesCollection).Pairwise (fun a b => cmp a b ≤ 0) := by
    refine pairwise_jsSortWith cmp (fun _ => True) ?_ ?_ seriesCollection
      (fun x _ => trivial)
    · intro x y _ _; simp only [hcmp]; omega
    · intro x y z _ _ _ h1 h2; simp only [hcmp] at h1 h2 ⊢; omega
  have hpw : (getSortedDataSeriesColorsValuesMap seriesCollection).Pairwise
      (fun a b => getSortIndex a.2 n ≤ getSortIndex b.2 n) := by
    rw [heq]
    refine hpw0.imp ?_
    intro a b hab
    simp only [hcmp] at hab
    omega
  have hget : ∀ i j (a b : String × SeriesCollectionValue), i < j →
      (getSortedDataSeriesColorsValuesMap seriesCollection).get? i = some a →
      (getSortedDataSeriesColorsValuesMap seriesCollection).get? j = some b →
      getSortIndex a.2 n ≤ getSortIndex b.2 n := by
    intro i j a b hij ha hb
    have hia := List.get?_eq_some.mp ha
    have hib := List.get?_eq_some.mp hb
    obtain ⟨hi, ha2⟩ := hia
    obtain ⟨hj, hb2⟩ := hib
    have := List.pairwise_iff_get.mp hpw ⟨i, hi⟩ ⟨j, hj⟩ hij
    rw [ha2, hb2] at this
    exact this
  refine ⟨by rw [heq]; exact hperm, hpw, ?_, ?_⟩
  · intro i j a b ma mb hij ha hb hma hmb
    have := hget i j a b hij ha hb
    simp only [getSortIndex, hma, hmb] at this
    exact_mod_cast this
  · intro i j a b mb ha hb hma hmb hlt
    rcases Nat.lt_trichotomy i j with hij | hij | hij
    · exfalso
      have := hget i j a b hij ha hb
      simp only [getSortIndex, hma, hmb] at this
      omega
    · exfalso
      subst hij
      rw [ha] at hb
      have hab : a = b := by injection hb
      rw [hab, hmb] at hma
      exact Option.noConfusion hma
    · exact hij

theorem getSortedDataSeriesColorsValuesMap_sorted_witness :
    (getSortedDataSeriesColorsValuesMap [("ka", scvIndexed), ("kb", scvIndexed)]).Perm
      [("ka", scvIndexed), ("kb", scvIndexed)] :=
  (getSortedDataSeriesColorsValuesMap_sorted [("ka", scvIndexed), ("kb", scvIndexed)]
    (by decide)).1

/-! ## Claims C4 and C10: color resolution -/

/-- The color stored for key `k` when the counter reads `c`. -/
def resolvedColor (chartColors : ColorConfig) (customColors : List (String × String))
    (overrides : ColorOverrides) (k : String) (c : Nat) : Option String :=
  if jsStrTruthy (getHighestOverride k customColors overrides) then
    getHighestOverride k customColors overrides
  else chartColors.vizColors.get? (c % chartColors.vizColors.length)

theorem getSeriesColorsStep_eq (chartColors : ColorConfig)
    (customColors : List (String × String)) (overrides : ColorOverrides)
    (m : List (String × Option String)) (c : Nat)
    (kv : String × SeriesCollectionValue) :
    getSeriesColorsStep chartColors customColors overrides (m, c) kv =
      (mapSet m kv.1 (resolvedColor chartColors customColors overrides kv.1 c), c + 1) :=
  rfl

theorem colors_foldl_get_not_mem (chartColors : ColorConfig)
    (customColors : List (String × String)) (overrides : ColorOverrides)
    (l : List (String × SeriesCollectionValue)) (m0 : List (String × Option String))
    (c0 : Nat) (k : String) (hk : k ∉ l.map Prod.fst) :
    mapGet ((l.foldl (getSeriesColorsStep chartColors customColors overrides)
      (m0, c0)).1) k = mapGet m0 k := by
  induction l generalizing m0 c0 with
  | nil => rfl
  | cons hd tl ih =>
    have hne : hd.1 ≠ k := by
      intro h; exact hk (by simp [h])
    simp only [List.foldl_cons, getSeriesColorsStep_eq]
    rw [ih _ _ (fun h => hk (by simp [h]))]
    exact mapGet_mapSet_ne m0 _ hne

theorem colors_foldl_get_at (chartColors : ColorConfig)
    (customColors : List (String × String)) (overrides : ColorOverrides)
    (l : List (String × SeriesCollectionValue)) (m0 : List (String × Option String))
    (c0 : Nat) (i : Nat) (kv : String × SeriesCollectionValue)
    (hnd : (l.map Prod.fst).Nodup) (hget : l.get? i = some kv) :
    mapGet ((l.foldl (getSeriesColorsStep chartColors customColors overrides)
      (m0, c0)).1) kv.1 =
      some (resolvedColor chartColors customColors overrides kv.1 (c0 + i)) := by
  induction l generalizing m0 c0 i with
  | nil => simp at hget
  | cons hd tl ih =>
    have hn2 : hd.1 ∉ tl.map Prod.fst ∧ (tl.map Prod.fst).Nodup := by
      rw [List.map_cons, List.nodup_cons] at hnd
      exact hnd
    cases i with
    | zero =>
      have hkv : hd = kv := by simpa using hget
      subst hkv
      simp only [List.foldl_cons, getSeriesColorsStep_eq]
      rw [colors_foldl_get_not_mem chartColors customColors overrides tl _ _ _ hn2.1]
      simpa using mapGet_mapSet_self m0 hd.1 _
    | succ j =>
      have hget2 : tl.get? j = some kv := by simpa using hget
      simp only [List.foldl_cons, getSeriesColorsStep_eq]
      rw [ih _ _ _ hn2.2 hget2]
      have harith : c0 + 1 + j = c0 + (j + 1) := by omega
      rw [harith]

theorem colors_foldl_keys (chartColors : ColorConfig)
    (customColors : List (String × String)) (overrides : ColorOverrides)
    (l : List (String × SeriesCollectionValue)) (m0 : List (String × Option String))
    (c0 : Nat) (hnd : (l.map Prod.fst).Nodup)
    (hdisj : ∀ k ∈ l.map Prod.fst, k ∉ m0.map Prod.fst) :
    ((l.foldl (getSeriesColorsStep chartColors customColors overrides)
      (m0, c0)).1).map Prod.fst = m0.map Prod.fst ++ l.map Prod.fst := by
  induction l generalizing m0 c0 with
  | nil => simp
  | cons hd tl ih =>
    have hn2 : hd.1 ∉ tl.map Prod.fst ∧ (tl.map Prod.fst).Nodup := by
      rw [List.map_cons, List.nodup_cons] at hnd
      exact hnd
    have hm : hd.1 ∉ m0.map Prod.fst := hdisj hd.1 (by simp)
    simp only [List.foldl_cons, getSeriesColorsStep_eq]
    rw [ih _ _ hn2.2]
    · rw [mapSet_of_not_mem _ hm]
      simp
    · intro k hk
      rw [mapSet_of_not_mem _ hm]
      simp only [List.map_append, List.mem_append]
      rintro (hk2 | hk2)
      · exact hdisj k (by simp [hk]) hk2
      · have hka : k = hd.1 := by simpa using hk2
        subst hka
        exact hn2.1 hk

theorem colors_foldl_get_truthy (chartColors : ColorConfig)
    (customColors : List (String × String)) (overrides : ColorOverrides)
    (l : List (String × SeriesCollectionValue)) (m0 : List (String × Option String))
    (c0 : Nat) (k : String)
    (htr : jsStrTruthy (getHighestOverride k customColors overrides) = true)
    (hk : k ∈ l.map Prod.fst ∨
      mapGet m0 k = some (getHighestOverride k customColors overrides)) :
    mapGet ((l.foldl (getSeriesColorsStep chartColors customColors overrides)
      (m0, c0)).1) k = some (getHighestOverride k customColors overrides) := by
  induction l generalizing m0 c0 with
  | nil =>
    rcases hk with hk | hk
    · simp at hk
    · exact hk
  | cons hd tl ih =>
    simp only [List.foldl_cons, getSeriesColorsStep_eq]
    by_cases hkhd : hd.1 = k
    · subst hkhd
      refine ih _ _ (Or.inr ?_)
      rw [mapGet_mapSet_self]
      simp [resolvedColor, htr]
    · refine ih _ _ ?_
      rcases hk with hk | hk
      · rw [List.map_cons] at hk
        rcases List.mem_cons.mp hk with hk2 | hk2
        · exact absurd hk2.symm hkhd
        · exact Or.inl hk2
      · exact Or.inr (by rw [mapGet_mapSet_ne m0 _ hkhd]; exact hk)

/-- **C10.** In `getSeriesColors` the palette cursor advances once per
series, including overridden ones: every entry of the collection receives
`resolvedColor` at its zero-based iteration position — in particular, an
entry whose override is falsy receives `vizColors[i % vizColors.length]`
for its collection position `i`, not the count of previously
non-overridden entries — and the returned map has exactly the input
collection's keys. -/
theorem getSeriesColors_positional (seriesCollection : List (String × SeriesCollectionValue))
    (chartColors : ColorConfig) (customColors : List (String × String))
    (overrides : ColorOverrides)
    (hnd : (seriesCollection.map Prod.fst).Nodup) :
    (getSeriesColors seriesCollection chartColors customColors overrides).map Prod.fst
      = seriesCollection.map Prod.fst
  ∧ (∀ i kv, seriesCollection.get? i = some kv →
      mapGet (getSeriesColors seriesCollection chartColors customColors overrides) kv.1
        = some (resolvedColor chartColors customColors overrides kv.1 i))
  ∧ (∀ i kv, seriesCollection.get? i = some kv →
      jsStrTruthy (getHighestOverride kv.1 customColors overrides) = false →
      mapGet (getSeriesColors seriesCollection chartColors customColors overrides) kv.1
        = some (chartColors.vizColors.get? (i % chartColors.vizColors.length))) := by
  refine ⟨?_, ?_, ?_⟩
  · rw [getSeriesColors]
    simpa using colors_foldl_keys chartColors customColors overrides
      seriesCollection [] 0 hnd (by simp)
  · intro i kv hget
    rw [getSeriesColors]
    simpa using colors_foldl_get_at chartColors customColors overrides
      seriesCollection [] 0 i kv hnd hget
  · intro i kv hget hfal
    rw [getSeriesColors]
    have h := colors_foldl_get_at chartColors customColors overrides
      seriesCollection [] 0 i kv hnd hget
    rw [h]
    simp [resolvedColor, hfal]

theorem getSeriesColors_positional_witness :
    mapGet (getSeriesColors [("k1", scvIndexed), ("k2", scvNoIndex)]
        ⟨["blue", "green"]⟩ [("k1", "red")] ⟨[], []⟩) "k2"
      = some ((["blue", "green"] : List String).get? (1 % 2)) :=
  (getSeriesColors_positional [("k1", scvIndexed), ("k2", scvNoIndex)]
    ⟨["blue", "green"]⟩ [("k1", "red")] ⟨[], []⟩ (by decide)).2.2 1
    ("k2", scvNoIndex) rfl (by decide)

/-- Fixture maps for the C4 counterexample: the key is present in both
the custom-color map (with the falsy empty string) and the persisted
overrides, and absent from the temporary overrides. -/
def c4custom : List (String × String) := [("k", "")]

/-- Persisted override map of the C4 counterexample. -/
def c4overrides : ColorOverrides := ⟨[], [("k", "red")]⟩

/-- **C4 (counterexample).** A key present in both the persisted
overrides and the custom-color map (and absent from the temporary
overrides) does *not* always resolve to the custom entry: the custom
entry `""` is falsy, so the code falls through to the persisted color
`"red"`. -/
theorem getSeriesColors_custom_empty_counterexample :
    mapGet c4custom "k" = some ""
  ∧ mapGet c4overrides.persisted "k" = some "red"
  ∧ mapGet c4overrides.temporary "k" = Option.none
  ∧ getSeriesColors [("k", scvIndexed)] ⟨["blue"]⟩ c4custom c4overrides
      = [("k", some "red")]
  ∧ ("red" : String) ≠ "" :=
  ⟨rfl, rfl, rfl, rfl, by decide⟩

/-- **C4 (amended).** The override precedence
temporary > custom > persisted > palette holds for *truthy* (non-empty)
entries: a truthy temporary entry wins; with a falsy temporary lookup, a
non-empty custom entry wins — in particular a key present in both the
persisted and custom maps with a non-empty custom entry resolves to the
custom entry; with falsy temporary and custom lookups, the persisted
lookup is returned, and `getSeriesColors` stores the resolved override. -/
theorem getHighestOverride_precedence
    (seriesCollection : List (String × SeriesCollectionValue))
    (chartColors : ColorConfig) (customColors : List (String × String))
    (overrides : ColorOverrides) (k t c : String) :
    (mapGet overrides.temporary k = some t → t ≠ "" →
      getHighestOverride k customColors overrides = some t)
  ∧ (jsStrTruthy (mapGet overrides.temporary k) = false →
      mapGet customColors k = some c → c ≠ "" →
      getHighestOverride k customColors overrides = some c)
  ∧ (jsStrTruthy (mapGet overrides.temporary k) = false →
      jsStrTruthy (mapGet customColors k) = false →
      getHighestOverride k customColors overrides = mapGet overrides.persisted k)
  ∧ (jsStrTruthy (mapGet overrides.temporary k) = false →
      mapGet customColors k = some c → c ≠ "" →
      k ∈ seriesCollection.map Prod.fst →
      mapGet (getSeriesColors seriesCollection chartColors customColors overrides) k
        = some (some c)) := by
  have htruthy : ∀ s : String, s ≠ "" → jsStrTruthy (some s) = true := by
    intro s hs
    have hemp : s.isEmpty = false := by
      cases h : s.isEmpty with
      | false => rfl
      | true => exact absurd ((String.isEmpty_iff s).mp h) hs
    simp [jsStrTruthy, hemp]
  refine ⟨?_, ?_, ?_, ?_⟩
  · intro ht hne
    rw [getHighestOverride, ht, if_pos (htruthy t hne)]
  · intro hfal hcust hne
    rw [getHighestOverride, if_neg (by simp [hfal]), hcust,
      if_pos (htruthy c hne)]
  · intro hfal hfal2
    rw [getHighestOverride, if_neg (by simp [hfal]), if_neg (by simp [hfal2])]
  · intro hfal hcust hne hmem
    have hov : getHighestOverride k customColors overrides = some c := by
      rw [getHighestOverride, if_neg (by simp [hfal]), hcust,
        if_pos (htruthy c hne)]
    rw [getSeriesColors]
    rw [colors_foldl_get_truthy chartColors customColors overrides seriesCollection
      [] 0 k (by rw [hov]; exact htruthy c hne) (Or.inl hmem)]
    rw [hov]

theorem getHighestOverride_precedence_witness :
    getHighestOverride "k" [("k", "c1")] ⟨[], [("k", "p1")]⟩ = some "c1"
  ∧ mapGet (getSeriesColors [("k", scvIndexed)] ⟨["blue"]⟩ [("k", "c1")]
      ⟨[], [("k", "p1")]⟩) "k" = some (some "c1") :=
  ⟨(getHighestOverride_precedence [] ⟨[]⟩ [("k", "c1")] ⟨[], [("k", "p1")]⟩
      "k" "t" "c1").2.1 (by decide) rfl (by decide),
    (getHighestOverride_precedence [("k", scvIndexed)] ⟨["blue"]⟩ [("k", "c1")]
      ⟨[], [("k", "p1")]⟩ "k" "t" "c1").2.2.2 (by decide) rfl (by decide)
      (by decide)⟩

/-! ## Canonical characterizations of the split traversals

The following definitions restate, per validated record and per
`(record, yAccessor)` pair, the quantities the two traversal branches
compute; the lemmas connect the branch folds to them. -/

/-- The numeric value `castToNumber` produces (independent of the
offender accumulator). -/
def castValue (v : JSVal) : Option Int := (castToNumber v []).1

/-- The offenders `castToNumber` appends for one value. -/
def castOffenders (v : JSVal) : List JSVal := (castToNumber v []).2

theorem castToNumber_eq (v : JSVal) (acc : List JSVal) :
    castToNumber v acc = (castValue v, acc ++ castOffenders v) := by
  cases v with
  | null => simp [castToNumber, castValue, castOffenders]
  | undef => simp [castToNumber, castValue, castOffenders]
  | bool b =>
    cases h : jsToNumber (JSVal.bool b) <;>
      simp [castToNumber, castValue, castOffenders, h]
  | num n =>
    cases h : jsToNumber (JSVal.num n) <;>
      simp [castToNumber, castValue, castOffenders, h]
  | str s =>
    cases h : jsToNumber (JSVal.str s) <;>
      simp [castToNumber, castValue, castOffenders, h]
  | obj fs =>
    cases h : jsToNumber (JSVal.obj fs) <;>
      simp [castToNumber, castValue, castOffenders, h]

/-- The extracted values of one `(record, yAccessor)` visit (independent
of the offender accumulator). -/
def extractValues (datum : JSVal) (yAccessor : PrimVal) (y0Accessor : Option PrimVal)
    (markSizeAccessor : Option AccessorOrFn) : ExtractedValues :=
  (extractYAndMarkFromDatum datum yAccessor [] y0Accessor markSizeAccessor).1

/-- The offenders one `(record, yAccessor)` visit appends. -/
def extractOffenders (datum : JSVal) (yAccessor : PrimVal) (y0Accessor : Option PrimVal)
    (markSizeAccessor : Option AccessorOrFn) : List JSVal :=
  (extractYAndMarkFromDatum datum yAccessor [] y0Accessor markSizeAccessor).2

theorem extract_eq (datum : JSVal) (yAccessor : PrimVal) (acc : List JSVal)
    (y0Accessor : Option PrimVal) (markSizeAccessor : Option AccessorOrFn) :
    extractYAndMarkFromDatum datum yAccessor acc y0Accessor markSizeAccessor =
      (extractValues datum yAccessor y0Accessor markSizeAccessor,
        acc ++ extractOffenders datum yAccessor y0Accessor markSizeAccessor) := by
  cases markSizeAccessor with
  | none =>
    cases y0Accessor with
    | none =>
      simp [extractYAndMarkFromDatum, extractValues, extractOffenders, castToNumber_eq]
    | some a =>
      by_cases ht : a.truthy = true <;>
        simp [extractYAndMarkFromDatum, extractValues, extractOffenders,
          castToNumber_eq, ht]
  | some m =>
    cases y0Accessor with
    | none =>
      simp [extractYAndMarkFromDatum, extractValues, extractOffenders, castToNumber_eq]
    | some a =>
      by_cases ht : a.truthy = true <;>
        simp [extractYAndMarkFromDatum, extractValues, extractOffenders,
          castToNumber_eq, ht]

/-- The validated records of one spec, in dataset order. -/
def validRecords (spec : BasicSeriesSpec)
    (smallMultiples : Option SmallMultiplesGroupBy) : List ValidRecord :=
  spec.data.filterMap (fun datum =>
    (recordEntry spec datum).map (fun sx =>
      ⟨datum, sx.1, sx.2, extractSmV smallMultiples spec datum,
        extractSmH smallMultiples spec datum⟩))

/-- A `(validated record, indexed yAccessor)` visit. -/
abbrev SplitPair := ValidRecord × Nat × PrimVal

/-- All visits in record-major order (the default branch). -/
def pairsRM (spec : BasicSeriesSpec)
    (smallMultiples : Option SmallMultiplesGroupBy) : List SplitPair :=
  (validRecords spec smallMultiples).flatMap
    (fun r => spec.yAccessors.enum.map (fun ia => (r, ia)))

/-- All visits in accessor-major order (the legacy branch). -/
def pairsAM (spec : BasicSeriesSpec)
    (smallMultiples : Option SmallMultiplesGroupBy) : List SplitPair :=
  spec.yAccessors.enum.flatMap
    (fun ia => (validRecords spec smallMultiples).map (fun r => (r, ia)))

/-- The extracted values of one visit. -/
def pairExtract (spec : BasicSeriesSpec) (p : SplitPair) : ExtractedValues :=
  extractValues p.1.datum p.2.2 (spec.y0Accessors.bind (fun l => l.get? p.2.1))
    spec.markSizeAccessor

/-- The offenders one visit appends. -/
def pairOffenders (spec : BasicSeriesSpec) (p : SplitPair) : List JSVal :=
  extractOffenders p.1.datum p.2.2 (spec.y0Accessors.bind (fun l => l.get? p.2.1))
    spec.markSizeAccessor

/-- The `y1` sum contribution of one visit (`cleanedDatum.y1 ?? 0`). -/
def pairY1 (spec : BasicSeriesSpec) (p : SplitPair) : Int :=
  ((pairExtract spec p).y1).getD 0

/-- The series key of one visit. -/
def pairKey (spec : BasicSeriesSpec) (p : SplitPair) : String :=
  getSeriesKey ⟨spec.id, p.2.2, p.1.splitAccessors, p.1.smV, p.1.smH⟩ spec.groupId

/-- The datum one visit appends to its series. -/
def pairDatum (spec : BasicSeriesSpec) (p : SplitPair) : DataSeriesDatum :=
  ⟨p.1.x, (pairExtract spec p).y1, (pairExtract spec p).y0,
    (pairExtract spec p).initialY1, (pairExtract spec p).initialY0,
    (pairExtract spec p).mark, p.1.datum, p.1.smH, p.1.smV⟩

/-- The series one visit creates on first sight of its key. -/
def pairNewSeries (spec : BasicSeriesSpec) (isStacked : Bool)
    (stackMode : Option StackMode) (p : SplitPair) : DataSeries :=
  ⟨spec.id, spec.groupId, spec.seriesType, p.2.2, p.1.splitAccessors, p.1.smV,
    p.1.smH, stackMode, isStacked, p.1.splitAccessors.map Prod.snd ++ [p.2.2],
    pairKey spec p, [pairDatum spec p], spec⟩

theorem processYAccessor_eq (spec : BasicSeriesSpec) (isStacked : Bool)
    (stackMode : Option StackMode) (r : ValidRecord) (index : Nat)
    (accessor : PrimVal) (smV smH : Option PrimVal)
    (dataSeries : List (String × DataSeries)) (nonNumericValues : List JSVal)
    (hV : r.smV = smV) (hH : r.smH = smH) :
    processYAccessor spec isStacked stackMode index accessor r.datum r.x
      r.splitAccessors smV smH dataSeries nonNumericValues =
      ⟨seriesUpsert dataSeries (pairKey spec (r, index, accessor))
          (pairDatum spec (r, index, accessor))
          (pairNewSeries spec isStacked stackMode (r, index, accessor)),
        nonNumericValues ++ pairOffenders spec (r, index, accessor),
        (pairExtract spec (r, index, accessor)).y1⟩ := by
  subst hV hH
  simp only [processYAccessor, extract_eq, pairKey, pairDatum, pairNewSeries,
    pairOffenders, pairExtract]

/-! ## Generic fold lemmas -/

theorem foldl_flatMap_eq {α β γ : Type} (l : List α) (f : α → List β)
    (g : γ → β → γ) (init : γ) :
    (l.flatMap f).foldl g init = l.foldl (fun st a => (f a).foldl g st) init := by
  induction l generalizing init with
  | nil => rfl
  | cons a l ih => simp [List.flatMap_cons, List.foldl_append, ih]

theorem foldl_filterMap_eq {α β γ : Type} (g : β → Option γ) (f : α → γ → α)
    (step : α → β → α)
    (hstep : ∀ st b, step st b = (match g b with | some c => f st c | none => st))
    (l : List β) (init : α) :
    l.foldl step init = (l.filterMap g).foldl f init := by
  induction l generalizing init with
  | nil => rfl
  | cons b l ih =>
    rw [List.foldl_cons, hstep]
    cases h : g b <;> simp only [h, List.filterMap_cons, List.foldl_cons] <;> rw [ih]

theorem foldl_pair_fst {α β γ : Type} (l : List α) (f : β → α → β) (g : γ → α → γ)
    (b0 : β) (c0 : γ) :
    (l.foldl (fun p a => (f p.1 a, g p.2 a)) (b0, c0)).1 = l.foldl f b0 := by
  induction l generalizing b0 c0 with
  | nil => rfl
  | cons a l ih => simp [ih]

theorem foldl_pair_snd {α β γ : Type} (l : List α) (f : β → α → β) (g : γ → α → γ)
    (b0 : β) (c0 : γ) :
    (l.foldl (fun p a => (f p.1 a, g p.2 a)) (b0, c0)).2 = l.foldl g c0 := by
  induction l generalizing b0 c0 with
  | nil => rfl
  | cons a l ih => simp [ih]

theorem sum_map_flatMap {α β : Type} (l : List α) (f : α → List β) (c : β → Int) :
    (((l.flatMap f).map c).sum) = ((l.map (fun a => ((f a).map c).sum)).sum) := by
  induction l with
  | nil => rfl
  | cons a l ih => simp [List.flatMap_cons, ih]

theorem mapGet_eq_none_iff {κ ν : Type} [DecidableEq κ] (m : List (κ × ν)) (k : κ) :
    mapGet m k = none ↔ k ∉ m.map Prod.fst := by
  induction m with
  | nil => simp [mapGet]
  | cons hd tl ih =>
    obtain ⟨k0, v0⟩ := hd
    by_cases h : k0 = k
    · subst h; simp [mapGet]
    · have hne : ¬ k = k0 := fun hh => h hh.symm
      simp [mapGet, h, ih, hne]

/-- `Set.add` of an optional value (`if (!isNil(v)) set.add(v)`). -/
def optAdd (s : List PrimVal) : Option PrimVal → List PrimVal
  | some v => setAdd s v
  | none => s

theorem mem_foldl_optAdd {α : Type} (proj : α → Option PrimVal) (l : List α)
    (init : List PrimVal) (v : PrimVal) :
    (v ∈ l.foldl (fun s a => optAdd s (proj a)) init) ↔
      v ∈ init ∨ ∃ a ∈ l, proj a = some v := by
  induction l generalizing init with
  | nil => simp
  | cons a l ih =>
    simp only [List.foldl_cons, ih, List.mem_cons]
    cases h : proj a with
    | none =>
      simp only [optAdd]
      constructor
      · rintro (hv | ⟨b, hb, hpb⟩)
        · exact Or.inl hv
        · exact Or.inr ⟨b, by simp [hb], hpb⟩
      · rintro (hv | ⟨b, hb, hpb⟩)
        · exact Or.inl hv
        · rcases hb with rfl | hb
          · rw [h] at hpb; exact Option.noConfusion hpb
          · exact Or.inr ⟨b, hb, hpb⟩
    | some w =>
      simp only [optAdd, mem_setAdd]
      constructor
      · rintro ((hv | rfl) | ⟨b, hb, hpb⟩)
        · exact Or.inl hv
        · exact Or.inr ⟨a, by simp, h⟩
        · exact Or.inr ⟨b, by simp [hb], hpb⟩
      · rintro (hv | ⟨b, hb, hpb⟩)
        · exact Or.inl (Or.inl hv)
        · rcases hb with rfl | hb
          · rw [h] at hpb
            exact Or.inl (Or.inr (Option.some.inj hpb).symm)
          · exact Or.inr ⟨b, hb, hpb⟩

theorem foldl_mapSet_add_get {β : Type} (keyOf : β → PrimVal) (c : β → Int)
    (L : List β) (m0 : List (PrimVal × Int)) (x : PrimVal) :
    mapGet (L.foldl (fun m p =>
        mapSet m (keyOf p) ((mapGet m (keyOf p)).getD 0 + c p)) m0) x =
      if (L.filter (fun p => decide (keyOf p = x))).isEmpty then mapGet m0 x
      else some ((mapGet m0 x).getD 0 +
        ((L.filter (fun p => decide (keyOf p = x))).map c).sum) := by
  induction L generalizing m0 with
  | nil => simp
  | cons p L ih =>
    rw [List.foldl_cons]
    by_cases hx : keyOf p = x
    · subst hx
      rw [ih]
      have hfc : (p :: L).filter (fun q => decide (keyOf q = keyOf p)) =
          p :: L.filter (fun q => decide (keyOf q = keyOf p)) := by
        simp [List.filter_cons]
      rw [hfc]
      by_cases hL : (L.filter (fun q => decide (keyOf q = keyOf p))).isEmpty
      · have hLnil : L.filter (fun q => decide (keyOf q = keyOf p)) = [] := by
          simpa using hL
        rw [if_pos hL, mapGet_mapSet_self, hLnil, if_neg (by simp)]
        simp
      · rw [if_neg hL, if_neg (by simp), mapGet_mapSet_self]
        simp only [Option.getD_some, List.map_cons, List.sum_cons,
          Option.some.injEq]
        omega
    · rw [ih]
      have hfc : (p :: L).filter (fun q => decide (keyOf q = x)) =
          L.filter (fun q => decide (keyOf q = x)) := by
        simp [List.filter_cons, hx]
      rw [hfc]
      simp only [mapGet_mapSet_ne m0 ((mapGet m0 (keyOf p)).getD 0 + c p) hx]

/-! ## Branch characterizations -/

/-- The evolution of `(dataSeries, nonNumericValues)` for one visit. -/
def accPairStep (spec : BasicSeriesSpec) (isStacked : Bool)
    (stackMode : Option StackMode)
    (dn : List (String × DataSeries) × List JSVal) (p : SplitPair) :
    List (String × DataSeries) × List JSVal :=
  (seriesUpsert dn.1 (pairKey spec p) (pairDatum spec p)
      (pairNewSeries spec isStacked stackMode p),
    dn.2 ++ pairOffenders spec p)

/-- The evolution of the x-sum map for one visit. -/
def sumStep (spec : BasicSeriesSpec) (m : List (PrimVal × Int)) (p : SplitPair) :
    List (PrimVal × Int) :=
  mapSet m p.1.x ((mapGet m p.1.x).getD 0 + pairY1 spec p)

/-- The per-record `y1` total of the default branch. -/
def recY1 (spec : BasicSeriesSpec) (r : ValidRecord) : Int :=
  (spec.yAccessors.enum.map (fun ia => pairY1 spec (r, ia))).sum

/-- The evolution of the x-sum map for one validated record of the
default branch (no write happens when there is no `yAccessor`). -/
def recSumStep (spec : BasicSeriesSpec) (m : List (PrimVal × Int))
    (r : ValidRecord) : List (PrimVal × Int) :=
  if spec.yAccessors.isEmpty then m
  else mapSet m r.x ((mapGet m r.x).getD 0 + recY1 spec r)

theorem legacyProcessValidDatum_eq (spec : BasicSeriesSpec) (isStacked : Bool)
    (stackMode : Option StackMode) (index : Nat) (accessor : PrimVal)
    (st : SplitState) (r : ValidRecord) :
    legacyProcessValidDatum spec isStacked stackMode index accessor st r =
      { dataSeries := (accPairStep spec isStacked stackMode
          (st.dataSeries, st.nonNumericValues) (r, index, accessor)).1
        xValues := st.xValues ++ [r.x]
        smVValues := optAdd st.smVValues r.smV
        smHValues := optAdd st.smHValues r.smH
        xValueSums := sumStep spec st.xValueSums (r, index, accessor)
        nonNumericValues := (accPairStep spec isStacked stackMode
          (st.dataSeries, st.nonNumericValues) (r, index, accessor)).2 } := by
  cases hH : r.smH <;> cases hV : r.smV <;>
    simp [legacyProcessValidDatum, hH, hV,
      processYAccessor_eq spec isStacked stackMode r index accessor _ _
        st.dataSeries st.nonNumericValues hV hH,
      accPairStep, sumStep, pairY1, optAdd]

theorem inner_fold_eq (spec : BasicSeriesSpec) (isStacked : Bool)
    (stackMode : Option StackMode) (r : ValidRecord) (L : List (Nat × PrimVal))
    (st : SplitState) (s : Int) :
    L.foldl (innerAccessorStep spec isStacked stackMode r) (st, s) =
      ({ st with
          dataSeries := ((L.map (fun ia => ((r, ia) : SplitPair))).foldl
            (accPairStep spec isStacked stackMode)
            (st.dataSeries, st.nonNumericValues)).1
          nonNumericValues := ((L.map (fun ia => ((r, ia) : SplitPair))).foldl
            (accPairStep spec isStacked stackMode)
            (st.dataSeries, st.nonNumericValues)).2
          xValueSums :=
            if L.isEmpty then st.xValueSums
            else mapSet st.xValueSums r.x
              (s + (L.map (fun ia => pairY1 spec (r, ia))).sum) },
        s + (L.map (fun ia => pairY1 spec (r, ia))).sum) := by
  induction L generalizing st s with
  | nil => simp
  | cons ia L ih =>
    obtain ⟨i, a⟩ := ia
    rw [List.foldl_cons]
    have hstep : innerAccessorStep spec isStacked stackMode r (st, s) (i, a) =
        ({ st with
            dataSeries := (accPairStep spec isStacked stackMode
              (st.dataSeries, st.nonNumericValues) (r, i, a)).1
            nonNumericValues := (accPairStep spec isStacked stackMode
              (st.dataSeries, st.nonNumericValues) (r, i, a)).2
            xValueSums := mapSet st.xValueSums r.x (s + pairY1 spec (r, i, a)) },
          s + pairY1 spec (r, i, a)) := by
      simp [innerAccessorStep,
        processYAccessor_eq spec isStacked stackMode r i a _ _
          st.dataSeries st.nonNumericValues rfl rfl,
        accPairStep, pairY1]
    rw [hstep, ih]
    by_cases hL : L.isEmpty
    · have hLnil : L = [] := by simpa using hL
      subst hLnil
      simp
    · have hLne : L.isEmpty = false := by
        cases h2 : L.isEmpty
        · rfl
        · exact absurd h2 hL
      simp only [hLne, if_false, List.isEmpty_cons, List.map_cons,
        List.foldl_cons, List.sum_cons, Bool.false_eq_true, if_false]
      rw [mapSet_mapSet_self]
      have harith : s + pairY1 spec (r, i, a) +
          (L.map (fun ia2 => pairY1 spec (r, ia2))).sum =
          s + (pairY1 spec (r, i, a) +
            (L.map (fun ia2 => pairY1 spec (r, ia2))).sum) := by omega
      rw [harith]

theorem enum_isEmpty {α : Type} (l : List α) : l.enum.isEmpty = l.isEmpty := by
  cases l <;> rfl

theorem processValidDatum_eq (spec : BasicSeriesSpec) (isStacked : Bool)
    (stackMode : Option StackMode) (st : SplitState) (r : ValidRecord) :
    processValidDatum spec isStacked stackMode st r =
      { dataSeries := ((spec.yAccessors.enum.map (fun ia => ((r, ia) : SplitPair))).foldl
          (accPairStep spec isStacked stackMode)
          (st.dataSeries, st.nonNumericValues)).1
        nonNumericValues := ((spec.yAccessors.enum.map (fun ia => ((r, ia) : SplitPair))).foldl
          (accPairStep spec isStacked stackMode)
          (st.dataSeries, st.nonNumericValues)).2
        xValues := st.xValues ++ [r.x]
        smVValues := optAdd st.smVValues r.smV
        smHValues := optAdd st.smHValues r.smH
        xValueSums := recSumStep spec st.xValueSums r } := by
  cases hH : r.smH <;> cases hV : r.smV <;>
    · simp only [processValidDatum, hH, hV]
      rw [inner_fold_eq]
      simp only [recSumStep, recY1, enum_isEmpty]
      cases hy : spec.yAccessors.enum.isEmpty <;>
        · rw [← enum_isEmpty] at *
          simp_all [optAdd, hH, hV]

theorem normal_branch_eq (spec : BasicSeriesSpec) (isStacked : Bool)
    (stackMode : Option StackMode) (sm : Option SmallMultiplesGroupBy)
    (st0 : SplitState) :
    spec.data.foldl (processRecord spec isStacked stackMode sm) st0
    = (validRecords spec sm).foldl (processValidDatum spec isStacked stackMode) st0 := by
  rw [validRecords]
  refine foldl_filterMap_eq _ _ _ ?_ spec.data st0
  intro st b
  cases h : recordEntry spec b <;> simp [processRecord, h]

theorem legacy_inner_eq (spec : BasicSeriesSpec) (isStacked : Bool)
    (stackMode : Option StackMode) (sm : Option SmallMultiplesGroupBy)
    (index : Nat) (accessor : PrimVal) (st : SplitState) :
    spec.data.foldl (legacyProcessRecord spec isStacked stackMode sm index accessor) st
    = (validRecords spec sm).foldl
        (fun st r => legacyProcessValidDatum spec isStacked stackMode index accessor st r) st := by
  rw [validRecords]
  refine foldl_filterMap_eq _ _ _ ?_ spec.data st
  intro st b
  cases h : recordEntry spec b <;> simp [legacyProcessRecord, h]

theorem legacy_branch_eq (spec : BasicSeriesSpec) (isStacked : Bool)
    (stackMode : Option StackMode) (sm : Option SmallMultiplesGroupBy)
    (st0 : SplitState) :
    spec.yAccessors.enum.foldl (fun st p =>
      spec.data.foldl (legacyProcessRecord spec isStacked stackMode sm p.1 p.2) st) st0
    = (pairsAM spec sm).foldl (fun st p =>
        legacyProcessValidDatum spec isStacked stackMode p.2.1 p.2.2 st p.1) st0 := by
  rw [pairsAM, foldl_flatMap_eq]
  simp only [legacy_inner_eq, List.foldl_map]

theorem legacyPairFold_eq (spec : BasicSeriesSpec) (isStacked : Bool)
    (stackMode : Option StackMode) (L : List SplitPair) (st : SplitState) :
    L.foldl (fun st p =>
      legacyProcessValidDatum spec isStacked stackMode p.2.1 p.2.2 st p.1) st =
      { dataSeries := (L.foldl (accPairStep spec isStacked stackMode)
          (st.dataSeries, st.nonNumericValues)).1
        nonNumericValues := (L.foldl (accPairStep spec isStacked stackMode)
          (st.dataSeries, st.nonNumericValues)).2
        xValues := st.xValues ++ L.map (fun p => p.1.x)
        smVValues := L.foldl (fun s p => optAdd s p.1.smV) st.smVValues
        smHValues := L.foldl (fun s p => optAdd s p.1.smH) st.smHValues
        xValueSums := L.foldl (sumStep spec) st.xValueSums } := by
  induction L generalizing st with
  | nil => simp
  | cons p L ih =>
    obtain ⟨r, i, a⟩ := p
    simp only [List.foldl_cons]
    rw [legacyProcessValidDatum_eq spec isStacked stackMode i a st r, ih]
    simp

theorem normalFold_eq (spec : BasicSeriesSpec) (isStacked : Bool)
    (stackMode : Option StackMode) (rs : List ValidRecord) (st : SplitState) :
    rs.foldl (processValidDatum spec isStacked stackMode) st =
      { dataSeries := ((rs.flatMap (fun r =>
            spec.yAccessors.enum.map (fun ia => ((r, ia) : SplitPair)))).foldl
          (accPairStep spec isStacked stackMode)
          (st.dataSeries, st.nonNumericValues)).1
        nonNumericValues := ((rs.flatMap (fun r =>
            spec.yAccessors.enum.map (fun ia => ((r, ia) : SplitPair)))).foldl
          (accPairStep spec isStacked stackMode)
          (st.dataSeries, st.nonNumericValues)).2
        xValues := st.xValues ++ rs.map (fun r => r.x)
        smVValues := rs.foldl (fun s r => optAdd s r.smV) st.smVValues
        smHValues := rs.foldl (fun s r => optAdd s r.smH) st.smHValues
        xValueSums := rs.foldl (recSumStep spec) st.xValueSums } := by
  induction rs generalizing st with
  | nil => simp
  | cons r rs ih =>
    simp only [List.foldl_cons]
    rw [processValidDatum_eq, ih]
    simp [List.flatMap_cons, List.foldl_append]

theorem split_legacy_st (spec : BasicSeriesSpec) (sums : List (PrimVal × Int))
    (isStacked : Bool) (stackMode : Option StackMode)
    (sm : Option SmallMultiplesGroupBy) :
    splitSeriesDataByAccessors spec sums isStacked true stackMode sm =
      { dataSeries := ((pairsAM spec sm).foldl (accPairStep spec isStacked stackMode)
          ([], [])).1
        xValues := (pairsAM spec sm).map (fun p => p.1.x)
        smVValues := (pairsAM spec sm).foldl (fun s p => optAdd s p.1.smV) []
        smHValues := (pairsAM spec sm).foldl (fun s p => optAdd s p.1.smH) []
        xValueSums := (pairsAM spec sm).foldl (sumStep spec) sums
        nonNumericValues := ((pairsAM spec sm).foldl
          (accPairStep spec isStacked stackMode) ([], [])).2
        warnings :=
          if (((pairsAM spec sm).foldl (accPairStep spec isStacked stackMode)
              ([], [])).2).length > 0
          then [nonNumericWarning spec.id (((pairsAM spec sm).foldl
            (accPairStep spec isStacked stackMode) ([], [])).2)]
          else [] } := by
  have hb := legacy_branch_eq spec isStacked stackMode sm ⟨[], [], [], [], sums, []⟩
  rw [splitSeriesDataByAccessors, if_pos rfl, hb,
    legacyPairFold_eq spec isStacked stackMode (pairsAM spec sm)
      ⟨[], [], [], [], sums, []⟩]
  simp

theorem split_normal_st (spec : BasicSeriesSpec) (sums : List (PrimVal × Int))
    (isStacked : Bool) (stackMode : Option StackMode)
    (sm : Option SmallMultiplesGroupBy) :
    splitSeriesDataByAccessors spec sums isStacked false stackMode sm =
      { dataSeries := ((pairsRM spec sm).foldl (accPairStep spec isStacked stackMode)
          ([], [])).1
        xValues := (validRecords spec sm).map (fun r => r.x)
        smVValues := (validRecords spec sm).foldl (fun s r => optAdd s r.smV) []
        smHValues := (validRecords spec sm).foldl (fun s r => optAdd s r.smH) []
        xValueSums := (validRecords spec sm).foldl (recSumStep spec) sums
        nonNumericValues := ((pairsRM spec sm).foldl
          (accPairStep spec isStacked stackMode) ([], [])).2
        warnings :=
          if (((pairsRM spec sm).foldl (accPairStep spec isStacked stackMode)
              ([], [])).2).length > 0
          then [nonNumericWarning spec.id (((pairsRM spec sm).foldl
            (accPairStep spec isStacked stackMode) ([], [])).2)]
          else [] } := by
  have hb := normal_branch_eq spec isStacked stackMode sm ⟨[], [], [], [], sums, []⟩
  rw [splitSeriesDataByAccessors, if_neg (by simp), hb,
    normalFold_eq spec isStacked stackMode (validRecords spec sm)
      ⟨[], [], [], [], sums, []⟩, pairsRM]
  simp
/-! ## Claim C6: the ordinal fallback flag -/

/-- The x values one spec's split pushes, independent of the running
x-sum accumulator it receives. -/
def splitXValues (spec : BasicSeriesSpec) (legacy : Bool)
    (sm : Option SmallMultiplesGroupBy) : List PrimVal :=
  if legacy then (pairsAM spec sm).map (fun p => p.1.x)
  else (validRecords spec sm).map (fun r => r.x)

theorem split_xValues_eq (spec : BasicSeriesSpec) (sums : List (PrimVal × Int))
    (isStacked legacy : Bool) (stackMode : Option StackMode)
    (sm : Option SmallMultiplesGroupBy) :
    (splitSeriesDataByAccessors spec sums isStacked legacy stackMode sm).xValues
      = splitXValues spec legacy sm := by
  cases legacy <;> simp [split_legacy_st, split_normal_st, splitXValues]

theorem foldl_ina_fst (l : List PrimVal) (b0 : Bool) (c0 : List PrimVal) :
    (l.foldl (fun p xValue => (p.1 && xValue.isNum, setAdd p.2 xValue)) (b0, c0)).1
      = (b0 && l.all PrimVal.isNum) := by
  induction l generalizing b0 c0 with
  | nil => simp
  | cons v l ih => simp [ih, Bool.and_assoc]

theorem gdsStep_flags (legacy : Bool) (sm : Option SmallMultiplesGroupBy)
    (desel : List String) (sf : BasicSeriesSpec → Bool)
    (smf : BasicSeriesSpec → Option StackMode) (st : GDSState)
    (spec : BasicSeriesSpec) :
    (gdsStep legacy sm desel sf smf st spec).isOrdinalScale
      = (st.isOrdinalScale || decide (spec.xScaleType = XScaleType.ordinal))
  ∧ (gdsStep legacy sm desel sf smf st spec).isNumberArray
      = (st.isNumberArray && (splitXValues spec legacy sm).all PrimVal.isNum) := by
  constructor
  · rfl
  · show ((splitSeriesDataByAccessors spec st.xValueSums (sf spec) legacy
        (smf spec) sm).xValues.foldl
        (fun (p : Bool × List PrimVal) xValue =>
          (p.1 && xValue.isNum, setAdd p.2 xValue))
        (st.isNumberArray, st.globalXValues)).1 = _
    rw [foldl_ina_fst, split_xValues_eq]

theorem gds_flags (legacy : Bool) (sm : Option SmallMultiplesGroupBy)
    (desel : List String) (sf : BasicSeriesSpec → Bool)
    (smf : BasicSeriesSpec → Option StackMode) (specs : List BasicSeriesSpec)
    (st : GDSState) :
    (specs.foldl (gdsStep legacy sm desel sf smf) st).isOrdinalScale
      = (st.isOrdinalScale ||
          specs.any (fun spec => decide (spec.xScaleType = XScaleType.ordinal)))
  ∧ (specs.foldl (gdsStep legacy sm desel sf smf) st).isNumberArray
      = (st.isNumberArray &&
          specs.all (fun spec => (splitXValues spec legacy sm).all PrimVal.isNum)) := by
  induction specs generalizing st with
  | nil => simp
  | cons spec specs ih =>
    simp only [List.foldl_cons, List.any_cons, List.all_cons]
    rcases ih (gdsStep legacy sm desel sf smf st spec) with ⟨h1, h2⟩
    rw [h1, h2, (gdsStep_flags legacy sm desel sf smf st spec).1,
      (gdsStep_flags legacy sm desel sf smf st spec).2]
    constructor <;> simp [Bool.or_assoc, Bool.and_assoc]

/-- **C6.** `getDataSeriesFromSpecs` returns `fallbackScale = Ordinal`
precisely when no spec declares an ordinal x-scale and at least one
collected x value is non-numeric; in every other case `fallbackScale` is
`undefined` (`none`). -/
theorem getDataSeriesFromSpecs_fallbackScale (specs : List BasicSeriesSpec)
    (desel : List String) (orderBy : Option OrderBy) (legacy : Bool)
    (sm : Option SmallMultiplesGroupBy) (sf : BasicSeriesSpec → Bool)
    (smf : BasicSeriesSpec → Option StackMode) :
    ((getDataSeriesFromSpecs specs desel orderBy legacy sm sf smf).fallbackScale
        = some XScaleType.ordinal
      ↔ ((∀ spec ∈ specs, spec.xScaleType ≠ XScaleType.ordinal)
          ∧ ∃ spec ∈ specs,
            ∃ v ∈ (splitSeriesDataByAccessors spec [] (sf spec) legacy
              (smf spec) sm).xValues, v.isNum = false))
  ∧ ((getDataSeriesFromSpecs specs desel orderBy legacy sm sf smf).fallbackScale
        = Option.none
      ↔ ¬((∀ spec ∈ specs, spec.xScaleType ≠ XScaleType.ordinal)
          ∧ ∃ spec ∈ specs,
            ∃ v ∈ (splitSeriesDataByAccessors spec [] (sf spec) legacy
              (smf spec) sm).xValues, v.isNum = false)) := by
  have hflags := gds_flags legacy sm desel sf smf specs
    ⟨[], [], [], [], [], [], true, false⟩
  set st := specs.foldl (gdsStep legacy sm desel sf smf)
    ⟨[], [], [], [], [], [], true, false⟩ with hst
  have hP : (st.isOrdinalScale = false ∧ st.isNumberArray = false)
      ↔ ((∀ spec ∈ specs, spec.xScaleType ≠ XScaleType.ordinal)
        ∧ ∃ spec ∈ specs,
          ∃ v ∈ (splitSeriesDataByAccessors spec [] (sf spec) legacy
            (smf spec) sm).xValues, v.isNum = false) := by
    rw [hflags.1, hflags.2]
    simp only [split_xValues_eq]
    simp [List.any_eq_false, List.all_eq_false]
  have hfb : (getDataSeriesFromSpecs specs desel orderBy legacy sm sf smf).fallbackScale
      = (if (!st.isOrdinalScale && !st.isNumberArray) = true
         then some XScaleType.ordinal else Option.none) := rfl
  have hc : ((!st.isOrdinalScale && !st.isNumberArray) = true)
      ↔ (st.isOrdinalScale = false ∧ st.isNumberArray = false) := by
    cases h1 : st.isOrdinalScale <;> cases h2 : st.isNumberArray <;> simp
  constructor
  · rw [hfb]
    constructor
    · intro he
      by_cases h : (!st.isOrdinalScale && !st.isNumberArray) = true
      · exact hP.mp (hc.mp h)
      · rw [if_neg h] at he
        exact Option.noConfusion he
    · intro hp
      rw [if_pos (hc.mpr (hP.mpr hp))]
  · rw [hfb]
    constructor
    · intro he hp
      rw [if_pos (hc.mpr (hP.mpr hp))] at he
      exact Option.noConfusion he
    · intro hnp
      by_cases h : (!st.isOrdinalScale && !st.isNumberArray) = true
      · exact absurd (hP.mp (hc.mp h)) hnp
      · rw [if_neg h]

/-! ## Transposing the two traversal orders -/

theorem flatMap_cons_perm {α γ : Type} (l : List α) (g : α → γ) (h : α → List γ) :
    (l.flatMap (fun b => g b :: h b)).Perm (l.map g ++ l.flatMap h) := by
  induction l with
  | nil => exact List.Perm.refl _
  | cons b l ih =>
    simp only [List.flatMap_cons, List.map_cons, List.cons_append]
    refine List.Perm.cons (g b) ((ih.append_left (h b)).trans ?_)
    rw [← List.append_assoc, ← List.append_assoc]
    exact List.perm_append_comm.append_right _

theorem flatMap_map_perm {α β γ : Type} (l1 : List α) (l2 : List β) (f : α → β → γ) :
    (l1.flatMap (fun a => l2.map (f a))).Perm
      (l2.flatMap (fun b => l1.map (fun a => f a b))) := by
  induction l1 with
  | nil =>
    simp only [List.flatMap_nil, List.map_nil]
    have : (l2.flatMap (fun _ => ([] : List γ))) = [] := by
      induction l2 with
      | nil => rfl
      | cons b l2 ih => simp [List.flatMap_cons, ih]
    rw [this]
  | cons a l1 ih =>
    simp only [List.flatMap_cons, List.map_cons]
    refine (ih.append_left (l2.map (f a))).trans ?_
    exact (flatMap_cons_perm l2 (f a) (fun b => l1.map (fun a2 => f a2 b))).symm

theorem pairsAM_perm_pairsRM (spec : BasicSeriesSpec)
    (sm : Option SmallMultiplesGroupBy) :
    (pairsAM spec sm).Perm (pairsRM spec sm) := by
  rw [pairsAM, pairsRM]
  exact flatMap_map_perm spec.yAccessors.enum (validRecords spec sm)
    (fun ia r => (r, ia))

/-! ## Sum bookkeeping helpers -/

theorem sum_map_filter {α : Type} (l : List α) (q : α → Bool) (g : α → Int) :
    ((l.filter q).map g).sum = (l.map (fun a => if q a then g a else 0)).sum := by
  induction l with
  | nil => rfl
  | cons a l ih =>
    rw [List.filter_cons]
    cases h : q a <;> simp [h, ih]

theorem filter_pairs_of_record (spec : BasicSeriesSpec) (x : PrimVal)
    (r : ValidRecord) :
    (spec.yAccessors.enum.map (fun ia => ((r, ia) : SplitPair))).filter
        (fun p => decide (p.1.x = x)) =
      if r.x = x then spec.yAccessors.enum.map (fun ia => ((r, ia) : SplitPair))
      else [] := by
  rw [List.filter_map]
  by_cases hd : r.x = x
  · rw [if_pos hd]
    have : ((fun (p : SplitPair) => decide (p.1.x = x)) ∘
        (fun ia => ((r, ia) : SplitPair))) = fun _ => true := by
      funext ia; simp [hd]
    rw [this, List.filter_true]
  · rw [if_neg hd]
    have : ((fun (p : SplitPair) => decide (p.1.x = x)) ∘
        (fun ia => ((r, ia) : SplitPair))) = fun _ => false := by
      funext ia; simp [hd]
    rw [this, List.filter_false, List.map_nil]

theorem sum_pairY1_RMfilter (spec : BasicSeriesSpec)
    (sm : Option SmallMultiplesGroupBy) (x : PrimVal) :
    (((pairsRM spec sm).filter (fun p => decide (p.1.x = x))).map (pairY1 spec)).sum
      = (((validRecords spec sm).filter (fun r => decide (r.x = x))).map
          (recY1 spec)).sum := by
  rw [pairsRM, List.filter_flatMap]
  simp only [filter_pairs_of_record]
  rw [sum_map_flatMap]
  rw [sum_map_filter (validRecords spec sm) (fun r => decide (r.x = x)) (recY1 spec)]
  congr 1
  refine List.map_congr_left ?_
  intro r _
  by_cases hd : r.x = x
  · simp only [hd, decide_True, if_true, recY1, List.map_map]
    congr 1
  · simp [hd]

theorem RMfilter_empty_iff (spec : BasicSeriesSpec)
    (sm : Option SmallMultiplesGroupBy) (x : PrimVal) :
    ((pairsRM spec sm).filter (fun p => decide (p.1.x = x)) = []) ↔
      (spec.yAccessors.isEmpty = true ∨
        (validRecords spec sm).filter (fun r => decide (r.x = x)) = []) := by
  rw [pairsRM, List.filter_flatMap]
  simp only [filter_pairs_of_record]
  rw [List.flatMap_eq_nil_iff]
  constructor
  · intro h
    by_cases hy : spec.yAccessors.isEmpty = true
    · exact Or.inl hy
    · refine Or.inr (List.filter_eq_nil_iff.mpr ?_)
      intro r hr hrx
      have hx : r.x = x := by simpa using hrx
      have hnil := h r hr
      rw [if_pos hx] at hnil
      have hlen := congrArg List.length hnil
      simp only [List.length_map, List.enum_length, List.length_nil] at hlen
      exact hy (List.isEmpty_iff_length_eq_zero.mpr hlen)
  · rintro (hy | hf) r hr
    · have : spec.yAccessors = [] := List.isEmpty_iff.mp hy
      rw [this]
      simp
    · have := List.filter_eq_nil_iff.mp hf r hr
      have hx : ¬ r.x = x := by simpa using this
      rw [if_neg hx]

theorem foldl_recSumStep_empty (spec : BasicSeriesSpec)
    (hy : spec.yAccessors.isEmpty = true) (rs : List ValidRecord)
    (m : List (PrimVal × Int)) : rs.foldl (recSumStep spec) m = m := by
  induction rs generalizing m with
  | nil => rfl
  | cons r rs ih => simp [recSumStep, hy, ih]

theorem split_sums_formula (spec : BasicSeriesSpec) (sums : List (PrimVal × Int))
    (isStacked legacy : Bool) (stackMode : Option StackMode)
    (sm : Option SmallMultiplesGroupBy) (x : PrimVal) :
    mapGet (splitSeriesDataByAccessors spec sums isStacked legacy stackMode
        sm).xValueSums x =
      if spec.yAccessors.isEmpty = true ∨
          ((validRecords spec sm).filter (fun r => decide (r.x = x))).isEmpty = true
      then mapGet sums x
      else some ((mapGet sums x).getD 0 +
        (((validRecords spec sm).filter (fun r => decide (r.x = x))).map
          (recY1 spec)).sum) := by
  cases legacy
  · rw [split_normal_st]
    dsimp only
    by_cases hy : spec.yAccessors.isEmpty = true
    · rw [foldl_recSumStep_empty spec hy, if_pos (Or.inl hy)]
    · have hstep : recSumStep spec =
          fun m r => mapSet m r.x ((mapGet m r.x).getD 0 + recY1 spec r) := by
        funext m r
        rw [recSumStep, if_neg hy]
      rw [hstep, foldl_mapSet_add_get (fun r => r.x) (recY1 spec)]
      by_cases hf : ((validRecords spec sm).filter
          (fun r => decide (r.x = x))).isEmpty = true
      · rw [if_pos hf, if_pos (Or.inr hf)]
      · rw [if_neg hf, if_neg (by tauto)]
  · rw [split_legacy_st]
    dsimp only
    have hstep : sumStep spec = fun m (p : SplitPair) =>
        mapSet m p.1.x ((mapGet m p.1.x).getD 0 + pairY1 spec p) := rfl
    rw [hstep, foldl_mapSet_add_get (fun p : SplitPair => p.1.x) (pairY1 spec)]
    have hpermf : ((pairsAM spec sm).filter (fun p => decide (p.1.x = x))).Perm
        ((pairsRM spec sm).filter (fun p => decide (p.1.x = x))) :=
      (pairsAM_perm_pairsRM spec sm).filter _
    have hempty : (((pairsAM spec sm).filter
          (fun p => decide (p.1.x = x))).isEmpty = true) ↔
        (spec.yAccessors.isEmpty = true ∨
          ((validRecords spec sm).filter
            (fun r => decide (r.x = x))).isEmpty = true) := by
      constructor
      · intro h
        have h0 : (pairsAM spec sm).filter (fun p => decide (p.1.x = x)) = [] :=
          List.isEmpty_iff.mp h
        have h1 : (pairsRM spec sm).filter (fun p => decide (p.1.x = x)) = [] := by
          rw [h0] at hpermf
          exact (hpermf.symm).eq_nil
        rcases (RMfilter_empty_iff spec sm x).mp h1 with hy | hr
        · exact Or.inl hy
        · exact Or.inr (List.isEmpty_iff.mpr hr)
      · intro h
        have h2 : spec.yAccessors.isEmpty = true ∨
            (validRecords spec sm).filter (fun r => decide (r.x = x)) = [] := by
          rcases h with h | h
          · exact Or.inl h
          · exact Or.inr (List.isEmpty_iff.mp h)
        have h3 := (RMfilter_empty_iff spec sm x).mpr h2
        rw [h3] at hpermf
        exact List.isEmpty_iff.mpr hpermf.eq_nil
    have hsum : (((pairsAM spec sm).filter (fun p => decide (p.1.x = x))).map
        (pairY1 spec)).sum =
        (((validRecords spec sm).filter (fun r => decide (r.x = x))).map
          (recY1 spec)).sum := by
      rw [(hpermf.map (pairY1 spec)).sum_eq, sum_pairY1_RMfilter]
    by_cases hc : spec.yAccessors.isEmpty = true ∨
        ((validRecords spec sm).filter (fun r => decide (r.x = x))).isEmpty = true
    · rw [if_pos (hempty.mpr hc), if_pos hc]
    · rw [if_neg (fun h => hc (hempty.mp h)), if_neg hc, hsum]

theorem extractValues_y1 (datum : JSVal) (yAccessor : PrimVal)
    (y0Accessor : Option PrimVal) (markSizeAccessor : Option AccessorOrFn) :
    (extractValues datum yAccessor y0Accessor markSizeAccessor).y1 =
      castValue (objGet datum yAccessor) := by
  rw [extractValues, extractYAndMarkFromDatum.eq_def]
  simp only [castToNumber_eq]

/-- **C9.** The accumulated x→sum map is built only from `y1` values:
for every x, the final entry is the incoming entry plus the sum, over
validated records with that x, of the per-record `y1` totals, where each
visit contributes exactly `Number(datum[yAccessor])` coerced to `0` when
`null` — and stripping the spec's `y0Accessors` and `markSizeAccessor`
leaves the accumulated sums unchanged. -/
theorem xValueSums_only_y1 (spec : BasicSeriesSpec) (sums : List (PrimVal × Int))
    (isStacked legacy : Bool) (stackMode : Option StackMode)
    (sm : Option SmallMultiplesGroupBy) :
    (∀ x, mapGet (splitSeriesDataByAccessors spec sums isStacked legacy stackMode
        sm).xValueSums x =
      if spec.yAccessors.isEmpty = true ∨
          ((validRecords spec sm).filter (fun r => decide (r.x = x))).isEmpty = true
      then mapGet sums x
      else some ((mapGet sums x).getD 0 +
        (((validRecords spec sm).filter (fun r => decide (r.x = x))).map
          (recY1 spec)).sum))
  ∧ (∀ (r : ValidRecord) (ia : Nat × PrimVal),
      pairY1 spec (r, ia) = ((castToNumber (objGet r.datum ia.2) []).1).getD 0)
  ∧ ((splitSeriesDataByAccessors
        { spec with y0Accessors := none, markSizeAccessor := none }
        sums isStacked legacy stackMode none).xValueSums
      = (splitSeriesDataByAccessors spec sums isStacked legacy stackMode
          none).xValueSums) := by
  have hy1 : ∀ (spec2 : BasicSeriesSpec) (r : ValidRecord) (ia : Nat × PrimVal),
      pairY1 spec2 (r, ia) = ((castToNumber (objGet r.datum ia.2) []).1).getD 0 := by
    intro spec2 r ia
    rw [pairY1, pairExtract, extractValues_y1]
    rfl
  refine ⟨fun x => split_sums_formula spec sums isStacked legacy stackMode sm x,
    hy1 spec, ?_⟩
  have hpair : ∀ p : SplitPair,
      pairY1 { spec with y0Accessors := none, markSizeAccessor := none } p
        = pairY1 spec p := by
    intro p
    rw [hy1 _ p.1 p.2, hy1 spec p.1 p.2]
  cases legacy
  · rw [split_normal_st, split_normal_st]
    dsimp only
    have hvr : validRecords { spec with y0Accessors := none, markSizeAccessor := none }
        none = validRecords spec none := rfl
    rw [hvr]
    have hstep : recSumStep { spec with y0Accessors := none, markSizeAccessor := none }
        = recSumStep spec := by
      funext m r
      rw [recSumStep, recSumStep]
      have hr : recY1 { spec with y0Accessors := none, markSizeAccessor := none } r
          = recY1 spec r := by
        rw [recY1, recY1]
        congr 1
        refine List.map_congr_left ?_
        intro ia _
        exact hpair (r, ia)
      rw [hr]
    rw [hstep]
  · rw [split_legacy_st, split_legacy_st]
    dsimp only
    have hpm : pairsAM { spec with y0Accessors := none, markSizeAccessor := none }
        none = pairsAM spec none := rfl
    rw [hpm]
    have hstep : sumStep { spec with y0Accessors := none, markSizeAccessor := none }
        = sumStep spec := by
      funext m p
      rw [sumStep, sumStep, hpair p]
    rw [hstep]

/-! ## Claim C2: legacy (accessor-major) vs default (record-major) traversal -/

/-- The data list stored under one series key (empty when absent). -/
def seriesDataAt (ds : List (String × DataSeries)) (k : String) :
    List DataSeriesDatum :=
  ((mapGet ds k).map DataSeries.data).getD []

theorem acc_fold_fst (spec : BasicSeriesSpec) (isStacked : Bool)
    (stackMode : Option StackMode) (ps : List SplitPair)
    (ds0 : List (String × DataSeries)) (nn0 : List JSVal) :
    (ps.foldl (accPairStep spec isStacked stackMode) (ds0, nn0)).1 =
      ps.foldl (fun ds p => seriesUpsert ds (pairKey spec p) (pairDatum spec p)
        (pairNewSeries spec isStacked stackMode p)) ds0 := by
  induction ps generalizing ds0 nn0 with
  | nil => rfl
  | cons p ps ih =>
    rw [List.foldl_cons, List.foldl_cons]
    exact ih _ _

/-- What the upsert fold stores under one key: the initial entry extended
with the datum of every visit whose key matches, or a series created from
the first matching visit and extended with the rest. -/
theorem mapGet_foldl_upsert (spec : BasicSeriesSpec) (isStacked : Bool)
    (stackMode : Option StackMode) (ps : List SplitPair)
    (ds0 : List (String × DataSeries)) (k : String) :
    mapGet (ps.foldl (fun ds p => seriesUpsert ds (pairKey spec p)
        (pairDatum spec p) (pairNewSeries spec isStacked stackMode p)) ds0) k =
      match mapGet ds0 k, ps.filter (fun p => decide (pairKey spec p = k)) with
      | some s, f => some { s with data := s.data ++ f.map (pairDatum spec) }
      | none, [] => none
      | none, p :: rest => some { pairNewSeries spec isStacked stackMode p with
          data := pairDatum spec p :: rest.map (pairDatum spec) } := by
  induction ps generalizing ds0 with
  | nil =>
    cases h : mapGet ds0 k <;> simp [h]
  | cons p0 ps ih =>
    rw [List.foldl_cons, ih]
    by_cases hk : pairKey spec p0 = k
    · subst hk
      rw [List.filter_cons, if_pos (by simp)]
      cases h : mapGet ds0 (pairKey spec p0) with
      | some s =>
        have h2 : mapGet (seriesUpsert ds0 (pairKey spec p0) (pairDatum spec p0)
            (pairNewSeries spec isStacked stackMode p0)) (pairKey spec p0) =
            some { s with data := s.data ++ [pairDatum spec p0] } := by
          rw [seriesUpsert, h, mapGet_mapSet_self]
        rw [h2]
        simp
      | none =>
        have h2 : mapGet (seriesUpsert ds0 (pairKey spec p0) (pairDatum spec p0)
            (pairNewSeries spec isStacked stackMode p0)) (pairKey spec p0) =
            some (pairNewSeries spec isStacked stackMode p0) := by
          rw [seriesUpsert, h, mapGet_mapSet_self]
        rw [h2]
        simp [pairNewSeries]
    · rw [List.filter_cons, if_neg (by simp [hk])]
      have h2 : mapGet (seriesUpsert ds0 (pairKey spec p0) (pairDatum spec p0)
          (pairNewSeries spec isStacked stackMode p0)) k = mapGet ds0 k := by
        rw [seriesUpsert]
        cases h : mapGet ds0 (pairKey spec p0) <;> exact mapGet_mapSet_ne _ _ hk
      rw [h2]

/-- Starting from an empty map, the data stored under a key is exactly
the datum of every visit whose key matches, in visit order. -/
theorem seriesDataAt_fold (spec : BasicSeriesSpec) (isStacked : Bool)
    (stackMode : Option StackMode) (ps : List SplitPair) (k : String) :
    seriesDataAt ((ps.foldl (accPairStep spec isStacked stackMode) ([], [])).1) k =
      (ps.filter (fun p => decide (pairKey spec p = k))).map (pairDatum spec) := by
  rw [seriesDataAt, acc_fold_fst, mapGet_foldl_upsert]
  cases hf : ps.filter (fun p => decide (pairKey spec p = k)) with
  | nil => rfl
  | cons p rest => simp [pairNewSeries, mapGet]

/-- A key is absent from the built map exactly when no visit carries it. -/
theorem mapGet_fold_none (spec : BasicSeriesSpec) (isStacked : Bool)
    (stackMode : Option StackMode) (ps : List SplitPair) (k : String) :
    (mapGet ((ps.foldl (accPairStep spec isStacked stackMode) ([], [])).1) k
        = none) ↔
      ps.filter (fun p => decide (pairKey spec p = k)) = [] := by
  rw [acc_fold_fst, mapGet_foldl_upsert]
  cases hf : ps.filter (fun p => decide (pairKey spec p = k)) with
  | nil => simp [mapGet]
  | cons p rest => simp [mapGet]

/-- With at least one `yAccessor`, a record property is realized by some
accessor-major visit exactly when some validated record has it. -/
theorem exists_pairsAM_fst (spec : BasicSeriesSpec)
    (sm : Option SmallMultiplesGroupBy) (P : ValidRecord → Prop)
    (hy : spec.yAccessors ≠ []) :
    (∃ p ∈ pairsAM spec sm, P p.1) ↔ ∃ r ∈ validRecords spec sm, P r := by
  have he : spec.yAccessors.enum ≠ [] := by
    intro h
    apply hy
    have h2 := congrArg List.length h
    rw [List.enum_length] at h2
    exact List.length_eq_zero.mp h2
  simp only [pairsAM, List.mem_flatMap, List.mem_map]
  constructor
  · rintro ⟨p, ⟨ia, hia, r, hr, rfl⟩, hp⟩
    exact ⟨r, hr, hp⟩
  · rintro ⟨r, hr, hp⟩
    obtain ⟨ia, hia⟩ := List.exists_mem_of_ne_nil _ he
    exact ⟨(r, ia), ⟨ia, hia, r, hr, rfl⟩, hp⟩

/-- A two-accessor, one-record spec on which the two traversals collect
different `xValues` lists. -/
def c2spec : BasicSeriesSpec :=
  { id := "s", groupId := "g", seriesType := SeriesTypes.bar,
    data := [JSVal.obj [("x", JSVal.num 1), ("a", JSVal.num 2),
      ("b", JSVal.num 3)]],
    xAccessor := AccessorOrFn.path (PrimVal.str "x"),
    yAccessors := [PrimVal.str "a", PrimVal.str "b"], y0Accessors := none,
    markSizeAccessor := none, splitSeriesAccessors := [],
    xScaleType := XScaleType.linear, sortIndex := none }

/-- The legacy traversal pushes the record's x value once per y-accessor,
the default traversal once per record: on `c2spec` (two accessors, one
record) the collected `xValues` lists differ as lists. -/
theorem splitSeriesDataByAccessors_xValues_counterexample :
    (splitSeriesDataByAccessors c2spec [] false true none none).xValues =
        [PrimVal.num 1, PrimVal.num 1] ∧
      (splitSeriesDataByAccessors c2spec [] false false none none).xValues =
        [PrimVal.num 1] :=
  ⟨rfl, rfl⟩

/-- **C2.** Amended: with at least one y-accessor, the legacy
(accessor-major) and default (record-major) traversals agree on the data
contents of every series key (up to visit order), on which keys exist, on
the accumulated x-value sums pointwise, and on the `xValues` and
panel-value collections as sets; the `xValues` lists themselves can
differ, since the legacy branch pushes one x per accessor visit (see the
counterexample). -/
theorem splitSeriesDataByAccessors_legacy_equiv (spec : BasicSeriesSpec)
    (sums : List (PrimVal × Int)) (isStacked : Bool)
    (stackMode : Option StackMode) (sm : Option SmallMultiplesGroupBy)
    (hy : spec.yAccessors ≠ []) :
    (∀ k, (seriesDataAt (splitSeriesDataByAccessors spec sums isStacked true
          stackMode sm).dataSeries k).Perm
        (seriesDataAt (splitSeriesDataByAccessors spec sums isStacked false
          stackMode sm).dataSeries k)) ∧
    (∀ k, mapGet (splitSeriesDataByAccessors spec sums isStacked true
          stackMode sm).dataSeries k = none ↔
        mapGet (splitSeriesDataByAccessors spec sums isStacked false
          stackMode sm).dataSeries k = none) ∧
    (∀ x, mapGet (splitSeriesDataByAccessors spec sums isStacked true
          stackMode sm).xValueSums x =
        mapGet (splitSeriesDataByAccessors spec sums isStacked false
          stackMode sm).xValueSums x) ∧
    (∀ x, x ∈ (splitSeriesDataByAccessors spec sums isStacked true
          stackMode sm).xValues ↔
        x ∈ (splitSeriesDataByAccessors spec sums isStacked false
          stackMode sm).xValues) ∧
    (∀ v, v ∈ (splitSeriesDataByAccessors spec sums isStacked true
          stackMode sm).smVValues ↔
        v ∈ (splitSeriesDataByAccessors spec sums isStacked false
          stackMode sm).smVValues) ∧
    (∀ v, v ∈ (splitSeriesDataByAccessors spec sums isStacked true
          stackMode sm).smHValues ↔
        v ∈ (splitSeriesDataByAccessors spec sums isStacked false
          stackMode sm).smHValues) := by
  refine ⟨?_, ?_, ?_, ?_, ?_, ?_⟩
  · intro k
    rw [split_legacy_st, split_normal_st]
    dsimp only
    rw [seriesDataAt_fold, seriesDataAt_fold]
    exact ((pairsAM_perm_pairsRM spec sm).filter _).map _
  · intro k
    rw [split_legacy_st, split_normal_st]
    dsimp only
    rw [mapGet_fold_none, mapGet_fold_none]
    have hperm := (pairsAM_perm_pairsRM spec sm).filter
      (fun p => decide (pairKey spec p = k))
    constructor
    · intro h
      rw [h] at hperm
      exact (hperm.symm).eq_nil
    · intro h
      rw [h] at hperm
      exact hperm.eq_nil
  · intro x
    exact (split_sums_formula spec sums isStacked true stackMode sm x).trans
      (split_sums_formula spec sums isStacked false stackMode sm x).symm
  · intro x
    rw [split_legacy_st, split_normal_st]
    dsimp only
    simp only [List.mem_map]
    exact exists_pairsAM_fst spec sm (fun r => r.x = x) hy
  · intro v
    rw [split_legacy_st, split_normal_st]
    dsimp only
    rw [mem_foldl_optAdd (fun p : SplitPair => p.1.smV),
      mem_foldl_optAdd (fun r : ValidRecord => r.smV)]
    simp only [List.not_mem_nil, false_or]
    exact exists_pairsAM_fst spec sm (fun r => r.smV = some v) hy
  · intro v
    rw [split_legacy_st, split_normal_st]
    dsimp only
    rw [mem_foldl_optAdd (fun p : SplitPair => p.1.smH),
      mem_foldl_optAdd (fun r : ValidRecord => r.smH)]
    simp only [List.not_mem_nil, false_or]
    exact exists_pairsAM_fst spec sm (fun r => r.smH = some v) hy

theorem splitSeriesDataByAccessors_legacy_equiv_witness :
    c2spec.yAccessors ≠ [] ∧
      (PrimVal.num 1 ∈ (splitSeriesDataByAccessors c2spec [] false true
          none none).xValues ↔
        PrimVal.num 1 ∈ (splitSeriesDataByAccessors c2spec [] false false
          none none).xValues) :=
  ⟨by decide,
    (splitSeriesDataByAccessors_legacy_equiv c2spec [] false none none
      (by decide)).2.2.2.1 (PrimVal.num 1)⟩

/-! ## Claim C7: the single-series round trip -/

theorem getSplitAccessors_nil (d : JSVal) : getSplitAccessors d [] = [] := by
  rw [getSplitAccessors]
  cases d.isObjectNonNull <;> simp

theorem length_filterMap_eq {α β : Type} (f : α → Option β) (l : List α) :
    (l.filterMap f).length = (l.filter (fun a => (f a).isSome)).length := by
  induction l with
  | nil => rfl
  | cons a l ih => cases h : f a <;> simp [List.filterMap_cons, h, ih]

/-- With no configured split accessors, a record passes the per-record
checks exactly when it is a non-null object whose x value is a string or
a number. -/
theorem recordEntry_isSome (spec : BasicSeriesSpec) (d : JSVal)
    (hsp : spec.splitSeriesAccessors = []) :
    (recordEntry spec d).isSome =
      (d.isObjectNonNull &&
        ((getAccessorValue d spec.xAccessor).asPrimVal).isSome) := by
  rw [recordEntry]
  simp only [hsp, getSplitAccessors_nil]
  cases hobj : d.isObjectNonNull with
  | false => simp [hobj]
  | true =>
    cases hx : (getAccessorValue d spec.xAccessor).asPrimVal <;> simp [hobj, hx]

/-- With no split accessors, the number of validated records is the
number of non-null-object records with a string-or-number x value. -/
theorem validRecords_length (spec : BasicSeriesSpec)
    (hsp : spec.splitSeriesAccessors = []) :
    (validRecords spec none).length =
      (spec.data.filter (fun d => d.isObjectNonNull &&
        ((getAccessorValue d spec.xAccessor).asPrimVal).isSome)).length := by
  rw [validRecords, length_filterMap_eq]
  congr 1
  refine List.filter_congr ?_
  intro d _
  rw [← recordEntry_isSome spec d hsp]
  cases h : recordEntry spec d <;> simp [h]

/-- Every validated record of a no-split, no-panel run carries the empty
split map and the single-panel sentinel on both axes. -/
theorem mem_validRecords_fields (spec : BasicSeriesSpec) (r : ValidRecord)
    (hsp : spec.splitSeriesAccessors = []) (hr : r ∈ validRecords spec none) :
    r.splitAccessors = [] ∧
      r.smV = some DEFAULT_SINGLE_PANEL_SM_VALUE ∧
      r.smH = some DEFAULT_SINGLE_PANEL_SM_VALUE := by
  rw [validRecords, List.mem_filterMap] at hr
  obtain ⟨d, hd, hmap⟩ := hr
  cases hre : recordEntry spec d with
  | none => rw [hre] at hmap; exact absurd hmap (by simp)
  | some sx =>
    rw [hre] at hmap
    simp only [Option.map_some'] at hmap
    have hr2 := Option.some.inj hmap
    have hsx : sx.1 = [] := by
      cases hobj : d.isObjectNonNull with
      | false =>
        rw [recordEntry] at hre
        simp [hsp, getSplitAccessors_nil, hobj] at hre
      | true =>
        cases hx : (getAccessorValue d spec.xAccessor).asPrimVal with
        | none =>
          rw [recordEntry] at hre
          simp [hsp, getSplitAccessors_nil, hobj, hx] at hre
        | some x =>
          rw [recordEntry] at hre
          simp [hsp, getSplitAccessors_nil, hobj, hx] at hre
          rw [← hre]
    rw [← hr2]
    exact ⟨hsx, rfl, rfl⟩

/-- Folding the upsert over visits that all carry the same key extends
the single stored series in place. -/
theorem foldl_upsert_single (spec : BasicSeriesSpec) (isStacked : Bool)
    (stackMode : Option StackMode) (rest : List SplitPair) (k0 : String)
    (s : DataSeries) (hk : ∀ p ∈ rest, pairKey spec p = k0) :
    rest.foldl (fun ds p => seriesUpsert ds (pairKey spec p) (pairDatum spec p)
        (pairNewSeries spec isStacked stackMode p)) [(k0, s)] =
      [(k0, { s with data := s.data ++ rest.map (pairDatum spec) })] := by
  induction rest generalizing s with
  | nil => simp
  | cons p rest ih =>
    rw [List.foldl_cons, hk p (by simp)]
    have h1 : seriesUpsert [(k0, s)] k0 (pairDatum spec p)
        (pairNewSeries spec isStacked stackMode p) =
        [(k0, { s with data := s.data ++ [pairDatum spec p] })] := by
      rw [seriesUpsert]
      simp [mapGet, mapSet]
    rw [h1, ih _ (fun q hq => hk q (List.mem_cons_of_mem _ hq))]
    simp

/-- A nonempty visit list with one common key builds a one-entry map
holding every visit's datum in order. -/
theorem foldl_upsert_all_key (spec : BasicSeriesSpec) (isStacked : Bool)
    (stackMode : Option StackMode) (p0 : SplitPair) (rest : List SplitPair)
    (k0 : String) (hk : ∀ p ∈ p0 :: rest, pairKey spec p = k0) :
    (p0 :: rest).foldl (fun ds p => seriesUpsert ds (pairKey spec p)
        (pairDatum spec p) (pairNewSeries spec isStacked stackMode p)) [] =
      [(k0, { pairNewSeries spec isStacked stackMode p0 with
          data := pairDatum spec p0 :: rest.map (pairDatum spec) })] := by
  rw [List.foldl_cons, hk p0 (by simp)]
  have h1 : seriesUpsert [] k0 (pairDatum spec p0)
      (pairNewSeries spec isStacked stackMode p0) =
      [(k0, pairNewSeries spec isStacked stackMode p0)] := rfl
  rw [h1, foldl_upsert_single spec isStacked stackMode rest k0 _
    (fun q hq => hk q (List.mem_cons_of_mem _ hq))]
  simp [pairNewSeries]

theorem flatMap_singleton_eq_map {α β : Type} (l : List α) (f : α → β) :
    l.flatMap (fun a => [f a]) = l.map f := by
  induction l with
  | nil => rfl
  | cons a l ih => simp [List.flatMap_cons, ih]

/-- With one y-accessor both traversal orders visit exactly one pair per
validated record, pairing it with accessor index 0. -/
theorem pairsAM_single (spec : BasicSeriesSpec) (a : PrimVal)
    (hya : spec.yAccessors = [a]) :
    pairsAM spec none = (validRecords spec none).map
      (fun r => (r, ((0 : Nat), a))) := by
  rw [pairsAM, hya]
  simp

theorem pairsRM_single (spec : BasicSeriesSpec) (a : PrimVal)
    (hya : spec.yAccessors = [a]) :
    pairsRM spec none = (validRecords spec none).map
      (fun r => (r, ((0 : Nat), a))) := by
  rw [pairsRM, hya]
  rw [show ([a] : List PrimVal).enum = [((0 : Nat), a)] from rfl]
  exact flatMap_singleton_eq_map _ _

/-- In a no-split, no-panel, single-accessor run every visit carries the
same series key. -/
theorem pairKey_map_const (spec : BasicSeriesSpec) (a : PrimVal)
    (hsp : spec.splitSeriesAccessors = []) :
    ∀ p ∈ (validRecords spec none).map (fun r => (r, ((0 : Nat), a))),
      pairKey spec p = getSeriesKey ⟨spec.id, a, [],
        some DEFAULT_SINGLE_PANEL_SM_VALUE,
        some DEFAULT_SINGLE_PANEL_SM_VALUE⟩ spec.groupId := by
  intro p hp
  rw [List.mem_map] at hp
  obtain ⟨r, hr, rfl⟩ := hp
  obtain ⟨h1, h2, h3⟩ := mem_validRecords_fields spec r hsp hr
  rw [pairKey]
  dsimp only
  rw [h1, h2, h3]

/-- **C7.** Amended: with one y-accessor, no split-series accessors and
no small-multiple panels, a run over a dataset with at least one
validated record yields exactly one data series, whose data length equals
the number of input records that are non-null objects with a
string-or-number x value; records failing those checks contribute to no
series. (Without a validated record the run yields zero series, not one,
see the counterexample.) -/
theorem splitSeriesDataByAccessors_single_series (spec : BasicSeriesSpec)
    (sums : List (PrimVal × Int)) (isStacked legacy : Bool)
    (stackMode : Option StackMode) (a : PrimVal)
    (hya : spec.yAccessors = [a]) (hsp : spec.splitSeriesAccessors = [])
    (hrec : validRecords spec none ≠ []) :
    ∃ s : DataSeries,
      (splitSeriesDataByAccessors spec sums isStacked legacy stackMode
          none).dataSeries =
        [(getSeriesKey ⟨spec.id, a, [], some DEFAULT_SINGLE_PANEL_SM_VALUE,
            some DEFAULT_SINGLE_PANEL_SM_VALUE⟩ spec.groupId, s)] ∧
      s.data.length = (validRecords spec none).length ∧
      (validRecords spec none).length = (spec.data.filter (fun d =>
        d.isObjectNonNull &&
          ((getAccessorValue d spec.xAccessor).asPrimVal).isSome)).length := by
  have hcount := validRecords_length spec hsp
  have hk := pairKey_map_const spec a hsp
  cases hvr : validRecords spec none with
  | nil => exact absurd hvr hrec
  | cons r rs =>
    rw [hvr] at hcount hk
    cases legacy
    · rw [split_normal_st]
      dsimp only
      rw [acc_fold_fst, pairsRM_single spec a hya, hvr, List.map_cons]
      rw [foldl_upsert_all_key spec isStacked stackMode _ _ _
        (by simp only [List.map_cons] at hk; exact hk)]
      refine ⟨_, rfl, ?_, hcount⟩
      simp
    · rw [split_legacy_st]
      dsimp only
      rw [acc_fold_fst, pairsAM_single spec a hya, hvr, List.map_cons]
      rw [foldl_upsert_all_key spec isStacked stackMode _ _ _
        (by simp only [List.map_cons] at hk; exact hk)]
      refine ⟨_, rfl, ?_, hcount⟩
      simp

/-- A single-accessor, no-split, no-panel spec whose only record is
`null`. -/
def c7spec : BasicSeriesSpec :=
  { id := "s", groupId := "g", seriesType := SeriesTypes.bar,
    data := [JSVal.null],
    xAccessor := AccessorOrFn.path (PrimVal.str "x"),
    yAccessors := [PrimVal.str "y"], y0Accessors := none,
    markSizeAccessor := none, splitSeriesAccessors := [],
    xScaleType := XScaleType.linear, sortIndex := none }

/-- `c7spec` has one y-accessor, no split accessors and no panels, yet
its single non-object record is skipped and the run yields zero data
series, not exactly one. -/
theorem splitSeriesDataByAccessors_no_series_counterexample :
    (splitSeriesDataByAccessors c7spec [] false false none none).dataSeries = []
      ∧ c7spec.yAccessors.length = 1 ∧ c7spec.splitSeriesAccessors = [] :=
  ⟨rfl, rfl, rfl⟩

/-- A single-accessor, no-split, no-panel spec with one valid record and
one skipped `null` record. -/
def c7good : BasicSeriesSpec :=
  { id := "s", groupId := "g", seriesType := SeriesTypes.bar,
    data := [JSVal.obj [("x", JSVal.num 1), ("y", JSVal.num 2)], JSVal.null],
    xAccessor := AccessorOrFn.path (PrimVal.str "x"),
    yAccessors := [PrimVal.str "y"], y0Accessors := none,
    markSizeAccessor := none, splitSeriesAccessors := [],
    xScaleType := XScaleType.linear, sortIndex := none }

theorem splitSeriesDataByAccessors_single_series_witness :
    c7good.yAccessors = [PrimVal.str "y"] ∧ c7good.splitSeriesAccessors = [] ∧
      validRecords c7good none ≠ [] ∧
      ∃ s : DataSeries,
        (splitSeriesDataByAccessors c7good [] false false none
            none).dataSeries =
          [(getSeriesKey ⟨c7good.id, PrimVal.str "y", [],
              some DEFAULT_SINGLE_PANEL_SM_VALUE,
              some DEFAULT_SINGLE_PANEL_SM_VALUE⟩ c7good.groupId, s)] ∧
        s.data.length = (validRecords c7good none).length ∧
        (validRecords c7good none).length = (c7good.data.filter (fun d =>
          d.isObjectNonNull &&
            ((getAccessorValue d c7good.xAccessor).asPrimVal).isSome)).length := by
  have hrec : validRecords c7good none ≠ [] := by
    intro h
    exact absurd (congrArg List.length h) (by decide)
  exact ⟨rfl, rfl, hrec,
    splitSeriesDataByAccessors_single_series c7good [] false false none
      (PrimVal.str "y") rfl rfl hrec⟩

/-! ## Claim C1: the series key builder -/

theorem char_eq_of_toNat_eq (a b : Char) (h : a.toNat = b.toNat) : a = b :=
  Char.eq_of_val_eq (UInt32.toNat.inj h)

theorem string_eq_of_data_eq (a b : String) (h : a.data = b.data) : a = b := by
  cases a; cases b; simp_all

theorem charListLt_trans (a b c : List Char) (h1 : charListLt a b = true)
    (h2 : charListLt b c = true) : charListLt a c = true := by
  induction a generalizing b c with
  | nil =>
    cases c with
    | nil =>
      cases b with
      | nil => exact absurd h1 (by simp [charListLt])
      | cons y ys => exact absurd h2 (by simp [charListLt])
    | cons z zs => simp [charListLt]
  | cons x xs ih =>
    cases b with
    | nil => exact absurd h1 (by simp [charListLt])
    | cons y ys =>
      cases c with
      | nil => exact absurd h2 (by simp [charListLt])
      | cons z zs =>
        rw [charListLt] at h1 h2 ⊢
        by_cases hxy : x.toNat < y.toNat
        · by_cases hyz : y.toNat < z.toNat
          · rw [if_pos (by omega)]
          · rw [if_pos hxy] at h1
            by_cases hzy : z.toNat < y.toNat
            · rw [if_neg hyz, if_pos hzy] at h2
              exact absurd h2 (by simp)
            · rw [if_pos (by omega)]
        · by_cases hyx : y.toNat < x.toNat
          · rw [if_neg hxy, if_pos hyx] at h1
            exact absurd h1 (by simp)
          · have hxy2 : x.toNat = y.toNat := by omega
            rw [if_neg hxy, if_neg hyx] at h1
            by_cases hyz : y.toNat < z.toNat
            · rw [if_pos (by omega)]
            · by_cases hzy : z.toNat < y.toNat
              · rw [if_neg hyz, if_pos hzy] at h2
                exact absurd h2 (by simp)
              · rw [if_neg hyz, if_neg hzy] at h2
                rw [if_neg (by omega), if_neg (by omega)]
                exact ih ys zs h1 h2

theorem charListLt_irrefl (a : List Char) : charListLt a a = false := by
  induction a with
  | nil => rfl
  | cons x xs ih => rw [charListLt]; simp [ih]

theorem charListLt_connex (a b : List Char) (h1 : charListLt a b = false)
    (h2 : charListLt b a = false) : a = b := by
  induction a generalizing b with
  | nil =>
    cases b with
    | nil => rfl
    | cons y ys => exact absurd h1 (by simp [charListLt])
  | cons x xs ih =>
    cases b with
    | nil => exact absurd h2 (by simp [charListLt])
    | cons y ys =>
      rw [charListLt] at h1 h2
      by_cases hxy : x.toNat < y.toNat
      · rw [if_pos hxy] at h1
        exact absurd h1 (by simp)
      · by_cases hyx : y.toNat < x.toNat
        · rw [if_pos hyx] at h2
          exact absurd h2 (by simp)
        · rw [if_neg hxy, if_neg hyx] at h1
          rw [if_neg hyx, if_neg hxy] at h2
          rw [char_eq_of_toNat_eq x y (by omega), ih ys h1 h2]

/-- Cutting two concatenations at the first occurrence of a separator
absent from both prefixes. -/
theorem append_sep_inj {α : Type} (sep : α) (a b c d : List α)
    (ha : sep ∉ a) (hc : sep ∉ c) (h : a ++ sep :: b = c ++ sep :: d) :
    a = c ∧ b = d := by
  induction a generalizing c with
  | nil =>
    cases c with
    | nil => simpa using h
    | cons y cs =>
      rw [List.nil_append, List.cons_append] at h
      injection h with h1 h2
      exact absurd (by rw [h1]; exact List.mem_cons_self y cs) hc
  | cons x as ih =>
    cases c with
    | nil =>
      rw [List.nil_append, List.cons_append] at h
      injection h with h1 h2
      exact absurd (by rw [← h1]; exact List.mem_cons_self x as) ha
    | cons y cs =>
      rw [List.cons_append, List.cons_append] at h
      injection h with h1 h2
      obtain ⟨hac, hbd⟩ := ih cs (fun hm => ha (List.mem_cons_of_mem _ hm))
        (fun hm => hc (List.mem_cons_of_mem _ hm)) h2
      exact ⟨by rw [h1, hac], hbd⟩

/-- Two sorted permutations of each other agree, when the order is
antisymmetric across the two lists. -/
theorem eq_of_perm_of_pairwise {α : Type} (R : α → α → Prop)
    (l1 l2 : List α) (hp : l1.Perm l2) (h1 : l1.Pairwise R)
    (h2 : l2.Pairwise R)
    (hanti : ∀ a ∈ l1, ∀ b ∈ l2, R a b → R b a → a = b) : l1 = l2 := by
  induction l1 generalizing l2 with
  | nil => exact hp.nil_eq
  | cons a t1 ih =>
    cases l2 with
    | nil => exact absurd hp.symm.nil_eq (by simp)
    | cons b t2 =>
      by_cases hab : a = b
      · subst hab
        rw [ih t2 hp.cons_inv (List.pairwise_cons.mp h1).2
          (List.pairwise_cons.mp h2).2
          (fun x hx y hy => hanti x (List.mem_cons_of_mem _ hx) y
            (List.mem_cons_of_mem _ hy))]
      · have ha2 : a ∈ t2 := by
          have := hp.mem_iff.mp (List.mem_cons_self a t1)
          rcases List.mem_cons.mp this with h | h
          · exact absurd h hab
          · exact h
        have hb1 : b ∈ t1 := by
          have := hp.mem_iff.mpr (List.mem_cons_self b t2)
          rcases List.mem_cons.mp this with h | h
          · exact absurd h.symm hab
          · exact h
        have hRab : R a b := (List.pairwise_cons.mp h1).1 b hb1
        have hRba : R b a := (List.pairwise_cons.mp h2).1 a ha2
        exact absurd (hanti a (List.mem_cons_self a t1) b
          (List.mem_cons_self b t2) hRab hRba) hab

/-- In a list whose keys are pairwise distinct, an entry is determined
by its key. -/
theorem eq_of_mem_nodup_key {α β : Type} (l : List (α × β))
    (hn : (l.map Prod.fst).Nodup) (p q : α × β) (hp : p ∈ l) (hq : q ∈ l)
    (hk : p.1 = q.1) : p = q := by
  induction l with
  | nil => exact absurd hp (by simp)
  | cons x t ih =>
    rw [List.map_cons, List.nodup_cons] at hn
    rcases List.mem_cons.mp hp with rfl | hp2
    · rcases List.mem_cons.mp hq with rfl | hq2
      · rfl
      · exact absurd (hk ▸ List.mem_map_of_mem Prod.fst hq2) hn.1
    · rcases List.mem_cons.mp hq with rfl | hq2
      · exact absurd (hk ▸ List.mem_map_of_mem Prod.fst hp2) (by
          intro hm
          exact hn.1 (by simpa [hk] using hm))
      · exact ih hn.2 hp2 hq2

/-- `map f` is injective on lists of elements on which `f` is
injective. -/
theorem map_inj_on {α β : Type} (f : α → β) (P : α → Prop)
    (l1 l2 : List α) (h1 : ∀ a ∈ l1, P a) (h2 : ∀ a ∈ l2, P a)
    (hinj : ∀ a b, P a → P b → f a = f b → a = b)
    (h : l1.map f = l2.map f) : l1 = l2 := by
  induction l1 generalizing l2 with
  | nil =>
    cases l2 with
    | nil => rfl
    | cons b t2 => exact absurd h (by simp)
  | cons a t1 ih =>
    cases l2 with
    | nil => exact absurd h (by simp)
    | cons b t2 =>
      rw [List.map_cons, List.map_cons] at h
      injection h with hf ht
      rw [hinj a b (h1 a (by simp)) (h2 b (by simp)) hf,
        ih t2 (fun x hx => h1 x (List.mem_cons_of_mem _ hx))
          (fun x hx => h2 x (List.mem_cons_of_mem _ hx)) ht]

theorem joinSep_data_cons2 (x y : String) (r : List String) :
    (joinSep "|" (x :: y :: r)).data =
      x.data ++ ('|' : Char) :: (joinSep "|" (y :: r)).data := by
  rw [show joinSep "|" (x :: y :: r) = x ++ "|" ++ joinSep "|" (y :: r) from rfl]
  rw [String.data_append, String.data_append]
  simp

/-- `Array.prototype.join("|")` is injective on lists of nonempty
`|`-free parts. -/
theorem joinSep_bar_inj (l1 l2 : List String)
    (h1 : ∀ s ∈ l1, s ≠ "" ∧ ('|' : Char) ∉ s.data)
    (h2 : ∀ s ∈ l2, s ≠ "" ∧ ('|' : Char) ∉ s.data)
    (h : joinSep "|" l1 = joinSep "|" l2) : l1 = l2 := by
  induction l1 generalizing l2 with
  | nil =>
    cases l2 with
    | nil => rfl
    | cons y t2 =>
      cases t2 with
      | nil =>
        rw [show joinSep "|" ([] : List String) = "" from rfl,
          show joinSep "|" [y] = y from rfl] at h
        exact absurd h.symm (h2 y (by simp)).1
      | cons z r2 =>
        have hd := congrArg String.data h
        rw [joinSep_data_cons2] at hd
        simp [show joinSep "|" ([] : List String) = "" from rfl] at hd
  | cons x t1 ih =>
    cases t1 with
    | nil =>
      cases l2 with
      | nil =>
        rw [show joinSep "|" ([] : List String) = "" from rfl,
          show joinSep "|" [x] = x from rfl] at h
        exact absurd h (h1 x (by simp)).1
      | cons y t2 =>
        cases t2 with
        | nil =>
          rw [show joinSep "|" [x] = x from rfl,
            show joinSep "|" [y] = y from rfl] at h
          rw [h]
        | cons z r2 =>
          have hd := congrArg String.data h
          rw [joinSep_data_cons2, show joinSep "|" [x] = x from rfl] at hd
          have hmem : ('|' : Char) ∈ x.data := by rw [hd]; simp
          exact absurd hmem (h1 x (by simp)).2
    | cons x2 r1 =>
      cases l2 with
      | nil =>
        have hd := congrArg String.data h
        rw [joinSep_data_cons2] at hd
        simp [show joinSep "|" ([] : List String) = "" from rfl] at hd
      | cons y t2 =>
        cases t2 with
        | nil =>
          have hd := congrArg String.data h
          rw [joinSep_data_cons2, show joinSep "|" [y] = y from rfl] at hd
          have hmem : ('|' : Char) ∈ y.data := by rw [← hd]; simp
          exact absurd hmem (h2 y (by simp)).2
        | cons z r2 =>
          have hd := congrArg String.data h
          rw [joinSep_data_cons2, joinSep_data_cons2] at hd
          obtain ⟨hxy, hrest⟩ := append_sep_inj ('|' : Char) x.data _ y.data _
            (h1 x (by simp)).2 (h2 y (by simp)).2 hd
          rw [string_eq_of_data_eq _ _ hxy,
            ih (z :: r2) (fun s hs => h1 s (List.mem_cons_of_mem _ hs))
              (fun s hs => h2 s (List.mem_cons_of_mem _ hs))
              (string_eq_of_data_eq _ _ hrest)]

/-- No closing brace in the string (`\x7d` is the brace). -/
def noBrace (s : String) : Bool := s.data.all (fun c => c != '\x7d')

/-- Split keys: no brace, no part separator `|`, no pair separator `-`. -/
def splitKeyOk (s : String) : Bool :=
  s.data.all (fun c => c != '\x7d' && c != '|' && c != '-')

/-- Split values: no brace, no part separator `|`. -/
def splitValOk (s : String) : Bool :=
  s.data.all (fun c => c != '\x7d' && c != '|')

/-- Panel value restriction: absent, or a truthy brace-free string. -/
def goodPanelVal : Option PrimVal → Prop
  | none => True
  | some (PrimVal.str s) => s ≠ "" ∧ noBrace s = true
  | some (PrimVal.num _) => False

/-- Split entry restriction: string key and value over the restricted
alphabets. -/
def goodSplitEntry (kv : PrimVal × PrimVal) : Prop :=
  ∃ ks vs, kv.1 = PrimVal.str ks ∧ kv.2 = PrimVal.str vs ∧
    splitKeyOk ks = true ∧ splitValOk vs = true

/-- The restricted class of series identifiers on which the key builder
is injective: brace-free group, spec and y-accessor strings, split
entries over the restricted alphabets with pairwise-distinct keys, and
absent-or-truthy brace-free string panel values. -/
def C1Fields (g : String) (f : SeriesKeyFields) : Prop :=
  noBrace g = true ∧ noBrace f.specId = true ∧
  (∃ ys, f.yAccessor = PrimVal.str ys ∧ noBrace ys = true) ∧
  (∀ kv ∈ f.splitAccessors, goodSplitEntry kv) ∧
  (f.splitAccessors.map Prod.fst).Nodup ∧
  goodPanelVal f.smVerticalAccessorValue ∧
  goodPanelVal f.smHorizontalAccessorValue

theorem all_ne_not_mem (l : List Char) (c : Char)
    (h : l.all (fun x => x != c) = true) : c ∉ l := by
  rw [List.all_eq_true] at h
  intro hm
  simpa using h c hm

/-- The joined-and-sorted split segment of the key builder. -/
def joinedAcc (f : SeriesKeyFields) : String :=
  joinSep "|"
    ((jsSortWith (fun a b => if jsGt a.1 b.1 then 1 else -1) f.splitAccessors).map
      (fun kv => kv.1.render ++ "-" ++ kv.2.render))

/-- The vertical small-multiples segment of the key builder. -/
def smVSeg (o : Option PrimVal) : String :=
  if optTruthy o then
    "smV\x7b" ++ ((o.map PrimVal.render).getD "") ++ "\x7d"
  else ""

/-- The horizontal small-multiples segment of the key builder. -/
def smHSeg (o : Option PrimVal) : String :=
  if optTruthy o then
    "smH\x7b" ++ ((o.map PrimVal.render).getD "") ++ "\x7d"
  else ""

theorem key_data (f : SeriesKeyFields) (g : String) :
    (getSeriesKey f g).data =
      ['g','r','o','u','p','I','d','\x7b'] ++ (g.data ++ ('\x7d' ::
        (['s','p','e','c','\x7b'] ++ (f.specId.data ++ ('\x7d' ::
          (['y','A','c','c','e','s','s','o','r','\x7b'] ++
            (f.yAccessor.render.data ++ ('\x7d' ::
              (['s','p','l','i','t','A','c','c','e','s','s','o','r','s','\x7b'] ++
                ((joinedAcc f).data ++ ('\x7d' ::
                  (smVSeg f.smVerticalAccessorValue ++
                    smHSeg f.smHorizontalAccessorValue).data))))))))))) := by
  have h : getSeriesKey f g =
      "groupId\x7b" ++ g ++ "\x7dspec\x7b" ++ f.specId ++ "\x7dyAccessor\x7b" ++
        f.yAccessor.render ++ "\x7dsplitAccessors\x7b" ++ joinedAcc f ++ "\x7d" ++
        smVSeg f.smVerticalAccessorValue ++ smHSeg f.smHorizontalAccessorValue := rfl
  rw [h]
  simp only [String.data_append, List.append_assoc]
  rfl

theorem mem_joinSep_data (c : Char) (l : List String)
    (h : c ∈ (joinSep "|" l).data) : c = '|' ∨ ∃ s ∈ l, c ∈ s.data := by
  induction l with
  | nil =>
    exact absurd h (by simp [show joinSep "|" ([] : List String) = "" from rfl])
  | cons x t ih =>
    cases t with
    | nil =>
      rw [show joinSep "|" [x] = x from rfl] at h
      exact Or.inr ⟨x, by simp, h⟩
    | cons y r =>
      rw [show (joinSep "|" (x :: y :: r)).data =
          x.data ++ ('|' : Char) :: (joinSep "|" (y :: r)).data
        from joinSep_data_cons2 x y r] at h
      rcases List.mem_append.mp h with h1 | h2
      · exact Or.inr ⟨x, by simp, h1⟩
      · rcases List.mem_cons.mp h2 with rfl | h3
        · exact Or.inl rfl
        · rcases ih h3 with h4 | ⟨s, hs, hcs⟩
          · exact Or.inl h4
          · exact Or.inr ⟨s, List.mem_cons_of_mem _ hs, hcs⟩

/-- The comparator `getSeriesKey` sorts the split entries with. -/
def splitCmp (a b : PrimVal × PrimVal) : Int := if jsGt a.1 b.1 then 1 else -1

/-- One rendered `key-value` part of the split segment. -/
def partFn (kv : PrimVal × PrimVal) : String :=
  kv.1.render ++ "-" ++ kv.2.render

theorem joinedAcc_eq (f : SeriesKeyFields) :
    joinedAcc f =
      joinSep "|" ((jsSortWith splitCmp f.splitAccessors).map partFn) := rfl

theorem splitKeyOk_not_mem (s : String) (h : splitKeyOk s = true) :
    ('\x7d' : Char) ∉ s.data ∧ ('|' : Char) ∉ s.data ∧ ('-' : Char) ∉ s.data := by
  rw [splitKeyOk, List.all_eq_true] at h
  refine ⟨?_, ?_, ?_⟩ <;> intro hm <;> have h2 := h _ hm <;> simp at h2

theorem splitValOk_not_mem (s : String) (h : splitValOk s = true) :
    ('\x7d' : Char) ∉ s.data ∧ ('|' : Char) ∉ s.data := by
  rw [splitValOk, List.all_eq_true] at h
  refine ⟨?_, ?_⟩ <;> intro hm <;> have h2 := h _ hm <;> simp at h2

theorem noBrace_not_mem (s : String) (h : noBrace s = true) :
    ('\x7d' : Char) ∉ s.data := by
  rw [noBrace, List.all_eq_true] at h
  intro hm
  have h2 := h _ hm
  simp at h2

theorem part_data (ks vs : String) :
    (partFn (PrimVal.str ks, PrimVal.str vs)).data =
      ks.data ++ ('-' : Char) :: vs.data := by
  rw [partFn, show (PrimVal.str ks).render = ks from rfl,
    show (PrimVal.str vs).render = vs from rfl,
    String.data_append, String.data_append]
  simp

theorem part_inj (kv1 kv2 : PrimVal × PrimVal) (g1 : goodSplitEntry kv1)
    (g2 : goodSplitEntry kv2) (h : partFn kv1 = partFn kv2) : kv1 = kv2 := by
  obtain ⟨ks1, vs1, hk1, hv1, hok1, hov1⟩ := g1
  obtain ⟨ks2, vs2, hk2, hv2, hok2, hov2⟩ := g2
  have hd := congrArg String.data h
  rw [show partFn kv1 = partFn (PrimVal.str ks1, PrimVal.str vs1) by rw [partFn,
      partFn, hk1, hv1],
    show partFn kv2 = partFn (PrimVal.str ks2, PrimVal.str vs2) by rw [partFn,
      partFn, hk2, hv2], part_data, part_data] at hd
  obtain ⟨hk, hv⟩ := append_sep_inj ('-' : Char) _ _ _ _
    (splitKeyOk_not_mem ks1 hok1).2.2 (splitKeyOk_not_mem ks2 hok2).2.2 hd
  have e1 : kv1.1 = kv2.1 := by
    rw [hk1, hk2, string_eq_of_data_eq _ _ hk]
  have e2 : kv1.2 = kv2.2 := by
    rw [hv1, hv2, string_eq_of_data_eq _ _ hv]
  exact Prod.ext e1 e2

theorem strLt_irrefl (a : String) : strLt a a = false := by
  rw [strLt]
  exact charListLt_irrefl a.data

theorem strLt_trans (a b c : String) (h1 : strLt a b = true)
    (h2 : strLt b c = true) : strLt a c = true :=
  charListLt_trans a.data b.data c.data h1 h2

theorem strLt_connex (a b : String) (h1 : strLt a b = false)
    (h2 : strLt b a = false) : a = b :=
  string_eq_of_data_eq a b (charListLt_connex a.data b.data h1 h2)

theorem splitCmp_le_iff (a b : PrimVal × PrimVal) :
    splitCmp a b ≤ 0 ↔ jsGt a.1 b.1 = false := by
  rw [splitCmp]
  by_cases h : jsGt a.1 b.1 <;> simp [h]

theorem splitCmp_tot (x y : PrimVal × PrimVal) (gx : goodSplitEntry x)
    (gy : goodSplitEntry y) : splitCmp x y ≤ 0 ∨ splitCmp y x ≤ 0 := by
  obtain ⟨ks1, vs1, hk1, hv1, hok1, hov1⟩ := gx
  obtain ⟨ks2, vs2, hk2, hv2, hok2, hov2⟩ := gy
  rw [splitCmp_le_iff, splitCmp_le_iff, hk1, hk2]
  rw [show jsGt (PrimVal.str ks1) (PrimVal.str ks2) = strLt ks2 ks1 from rfl,
    show jsGt (PrimVal.str ks2) (PrimVal.str ks1) = strLt ks1 ks2 from rfl]
  cases hb : strLt ks2 ks1 with
  | false => exact Or.inl rfl
  | true =>
    cases hb2 : strLt ks1 ks2 with
    | false => exact Or.inr rfl
    | true =>
      have := strLt_trans ks2 ks1 ks2 hb hb2
      rw [strLt_irrefl] at this
      exact absurd this (by simp)

theorem splitCmp_trans (x y z : PrimVal × PrimVal) (gx : goodSplitEntry x)
    (gy : goodSplitEntry y) (gz : goodSplitEntry z)
    (h1 : splitCmp x y ≤ 0) (h2 : splitCmp y z ≤ 0) : splitCmp x z ≤ 0 := by
  obtain ⟨ks1, vs1, hk1, hv1, hok1, hov1⟩ := gx
  obtain ⟨ks2, vs2, hk2, hv2, hok2, hov2⟩ := gy
  obtain ⟨ks3, vs3, hk3, hv3, hok3, hov3⟩ := gz
  rw [splitCmp_le_iff, hk1, hk2] at h1
  rw [splitCmp_le_iff, hk2, hk3] at h2
  rw [splitCmp_le_iff, hk1, hk3]
  rw [show jsGt (PrimVal.str ks1) (PrimVal.str ks2) = strLt ks2 ks1 from rfl] at h1
  rw [show jsGt (PrimVal.str ks2) (PrimVal.str ks3) = strLt ks3 ks2 from rfl] at h2
  rw [show jsGt (PrimVal.str ks1) (PrimVal.str ks3) = strLt ks3 ks1 from rfl]
  cases hb : strLt ks3 ks1 with
  | false => rfl
  | true =>
    cases hc : strLt ks1 ks2 with
    | false =>
      rw [strLt_connex ks1 ks2 hc h1] at hb
      rw [hb] at h2
      exact absurd h2 (by simp)
    | true =>
      have := strLt_trans ks3 ks1 ks2 hb hc
      rw [this] at h2
      exact absurd h2 (by simp)

/-- The split entries of both identifiers being permutations yields
identical sorted lists. -/
theorem sorted_eq_of_perm (f1 f2 : SeriesKeyFields)
    (hs1 : ∀ kv ∈ f1.splitAccessors, goodSplitEntry kv)
    (hs2 : ∀ kv ∈ f2.splitAccessors, goodSplitEntry kv)
    (hn1 : (f1.splitAccessors.map Prod.fst).Nodup)
    (hperm : f1.splitAccessors.Perm f2.splitAccessors) :
    jsSortWith splitCmp f1.splitAccessors =
      jsSortWith splitCmp f2.splitAccessors := by
  apply eq_of_perm_of_pairwise (fun a b => splitCmp a b ≤ 0)
  · exact ((jsSortWith_perm _ _).trans hperm).trans (jsSortWith_perm _ _).symm
  · exact pairwise_jsSortWith splitCmp goodSplitEntry splitCmp_tot
      splitCmp_trans _ hs1
  · exact pairwise_jsSortWith splitCmp goodSplitEntry splitCmp_tot
      splitCmp_trans _ hs2
  · intro a ha b hb hab hba
    have ha2 : a ∈ f1.splitAccessors := (jsSortWith_perm _ _).mem_iff.mp ha
    have hb2 : b ∈ f1.splitAccessors :=
      hperm.mem_iff.mpr ((jsSortWith_perm _ _).mem_iff.mp hb)
    obtain ⟨ks1, vs1, hk1, hv1, hok1, hov1⟩ := hs1 a ha2
    obtain ⟨ks2, vs2, hk2, hv2, hok2, hov2⟩ := hs1 b hb2
    rw [splitCmp_le_iff, hk1, hk2,
      show jsGt (PrimVal.str ks1) (PrimVal.str ks2) = strLt ks2 ks1 from rfl]
      at hab
    rw [splitCmp_le_iff, hk2, hk1,
      show jsGt (PrimVal.str ks2) (PrimVal.str ks1) = strLt ks1 ks2 from rfl]
      at hba
    exact eq_of_mem_nodup_key f1.splitAccessors hn1 a b ha2 hb2
      (by rw [hk1, hk2, strLt_connex ks1 ks2 hba hab])

theorem parts_good (f : SeriesKeyFields)
    (hs : ∀ kv ∈ f.splitAccessors, goodSplitEntry kv) :
    ∀ s ∈ (jsSortWith splitCmp f.splitAccessors).map partFn,
      s ≠ "" ∧ ('|' : Char) ∉ s.data := by
  intro s hsm
  rw [List.mem_map] at hsm
  obtain ⟨kv, hkv, rfl⟩ := hsm
  obtain ⟨ks, vs, hk, hv, hok, hov⟩ := hs kv ((jsSortWith_perm _ _).mem_iff.mp hkv)
  have hd : (partFn kv).data = ks.data ++ ('-' : Char) :: vs.data := by
    rw [show partFn kv = partFn (PrimVal.str ks, PrimVal.str vs) by
      rw [partFn, partFn, hk, hv], part_data]
  constructor
  · intro h0
    rw [h0] at hd
    have hlen := congrArg List.length hd
    simp at hlen
    omega
  · intro hm
    rw [hd] at hm
    rcases List.mem_append.mp hm with h1 | h2
    · exact absurd h1 (splitKeyOk_not_mem ks hok).2.1
    · rcases List.mem_cons.mp h2 with h3 | h4
      · exact absurd h3 (by decide)
      · exact absurd h4 (splitValOk_not_mem vs hov).2

theorem joinedAcc_noBrace (f : SeriesKeyFields)
    (hs : ∀ kv ∈ f.splitAccessors, goodSplitEntry kv) :
    ('\x7d' : Char) ∉ (joinedAcc f).data := by
  rw [joinedAcc_eq]
  intro hm
  rcases mem_joinSep_data _ _ hm with h | ⟨s, hsmem, hcs⟩
  · exact absurd h (by decide)
  · rw [List.mem_map] at hsmem
    obtain ⟨kv, hkv, rfl⟩ := hsmem
    obtain ⟨ks, vs, hk, hv, hok, hov⟩ := hs kv ((jsSortWith_perm _ _).mem_iff.mp hkv)
    rw [show partFn kv = partFn (PrimVal.str ks, PrimVal.str vs) by
      rw [partFn, partFn, hk, hv], part_data] at hcs
    rcases List.mem_append.mp hcs with h1 | h2
    · exact absurd h1 (splitKeyOk_not_mem ks hok).1
    · rcases List.mem_cons.mp h2 with h3 | h4
      · exact absurd h3 (by decide)
      · exact absurd h4 (splitValOk_not_mem vs hov).1

theorem goodPanelVal_cases (o : Option PrimVal) (h : goodPanelVal o) :
    o = none ∨ ∃ s, o = some (PrimVal.str s) ∧ s ≠ "" ∧ noBrace s = true := by
  cases o with
  | none => exact Or.inl rfl
  | some p =>
    cases p with
    | str s => exact Or.inr ⟨s, rfl, h.1, h.2⟩
    | num n => exact h.elim

theorem smVSeg_some (s : String) (hs : s ≠ "") :
    smVSeg (some (PrimVal.str s)) = "smV\x7b" ++ s ++ "\x7d" := by
  have he : s.isEmpty = false := by
    cases h : s.isEmpty
    · rfl
    · exact absurd ((String.isEmpty_iff s).mp h) hs
  rw [smVSeg]
  simp [optTruthy, PrimVal.truthy, he, PrimVal.render]

theorem smHSeg_some (s : String) (hs : s ≠ "") :
    smHSeg (some (PrimVal.str s)) = "smH\x7b" ++ s ++ "\x7d" := by
  have he : s.isEmpty = false := by
    cases h : s.isEmpty
    · rfl
    · exact absurd ((String.isEmpty_iff s).mp h) hs
  rw [smHSeg]
  simp [optTruthy, PrimVal.truthy, he, PrimVal.render]

theorem smV_prefix_data (s : String) (hs : s ≠ "") (t : String) :
    (smVSeg (some (PrimVal.str s)) ++ t).data =
      's' :: 'm' :: 'V' :: '\x7b' :: (s.data ++ '\x7d' :: t.data) := by
  rw [String.data_append, smVSeg_some s hs, String.data_append,
    String.data_append]
  simp

theorem smV_none_data (t : String) : (smVSeg none ++ t).data = t.data := rfl

theorem smH_data (s : String) (hs : s ≠ "") :
    (smHSeg (some (PrimVal.str s))).data =
      's' :: 'm' :: 'H' :: '\x7b' :: (s.data ++ ['\x7d']) := by
  rw [smHSeg_some s hs, String.data_append, String.data_append]
  simp

theorem smHSeg_none_data : (smHSeg (none : Option PrimVal)).data = [] := rfl

/-- The trailing panel segments determine both panel values on the
restricted class. -/
theorem sm_tail_inj (v1 hv1 v2 hv2 : Option PrimVal)
    (gv1 : goodPanelVal v1) (gh1 : goodPanelVal hv1)
    (gv2 : goodPanelVal v2) (gh2 : goodPanelVal hv2)
    (heq : smVSeg v1 ++ smHSeg hv1 = smVSeg v2 ++ smHSeg hv2) :
    v1 = v2 ∧ hv1 = hv2 := by
  have hd := congrArg String.data heq
  have tailStep : ∀ (b d : Option PrimVal), goodPanelVal b → goodPanelVal d →
      (smHSeg b).data = (smHSeg d).data → b = d := by
    intro b d gb gd hbd
    rcases goodPanelVal_cases b gb with rfl | ⟨sb, rfl, hsb, hnb⟩ <;>
      rcases goodPanelVal_cases d gd with rfl | ⟨sd, rfl, hsd, hnd⟩
    · rfl
    · rw [smHSeg_none_data, smH_data sd hsd] at hbd
      exact absurd hbd (by simp)
    · rw [smHSeg_none_data, smH_data sb hsb] at hbd
      exact absurd hbd (by simp)
    · rw [smH_data sb hsb, smH_data sd hsd] at hbd
      injection hbd with e1 hbd
      injection hbd with e2 hbd
      injection hbd with e3 hbd
      injection hbd with e4 hbd
      obtain ⟨e, _⟩ := append_sep_inj ('\x7d' : Char) sb.data [] sd.data []
        (noBrace_not_mem _ hnb) (noBrace_not_mem _ hnd) hbd
      rw [string_eq_of_data_eq _ _ e]
  rcases goodPanelVal_cases v1 gv1 with rfl | ⟨s1, rfl, hs1, hb1⟩ <;>
    rcases goodPanelVal_cases v2 gv2 with rfl | ⟨s2, rfl, hs2, hb2⟩
  · rw [smV_none_data, smV_none_data] at hd
    exact ⟨rfl, tailStep hv1 hv2 gh1 gh2 hd⟩
  · rw [smV_none_data, smV_prefix_data s2 hs2] at hd
    rcases goodPanelVal_cases hv1 gh1 with rfl | ⟨t1, rfl, ht1, hc1⟩
    · rw [smHSeg_none_data] at hd
      exact absurd hd (by simp)
    · rw [smH_data t1 ht1] at hd
      injection hd with e1 hd
      injection hd with e2 hd
      injection hd with e3 hd
      exact absurd e3 (by decide)
  · rw [smV_none_data, smV_prefix_data s1 hs1] at hd
    rcases goodPanelVal_cases hv2 gh2 with rfl | ⟨t2, rfl, ht2, hc2⟩
    · rw [smHSeg_none_data] at hd
      exact absurd hd (by simp)
    · rw [smH_data t2 ht2] at hd
      injection hd with e1 hd
      injection hd with e2 hd
      injection hd with e3 hd
      exact absurd e3 (by decide)
  · rw [smV_prefix_data s1 hs1, smV_prefix_data s2 hs2] at hd
    injection hd with e1 hd
    injection hd with e2 hd
    injection hd with e3 hd
    injection hd with e4 hd
    obtain ⟨e, etail⟩ := append_sep_inj ('\x7d' : Char) s1.data _ s2.data _
      (noBrace_not_mem _ hb1) (noBrace_not_mem _ hb2) hd
    refine ⟨by rw [string_eq_of_data_eq _ _ e], tailStep hv1 hv2 gh1 gh2 etail⟩

/-- **C1.** Amended: `getSeriesKey` is total, and on the restricted
class `C1Fields` (brace-free group, spec and y-accessor strings; string
split entries whose keys are brace-free and avoid the `-` and `|`
separators and repeat no key, and whose values are brace-free and avoid
`|`; absent-or-truthy brace-free string panel values) it is injective up
to split-map insertion order: two identifiers produce the same key
exactly when all their grouping fields agree, with the split maps
permutations of each other. Outside the class distinct identifiers can
collide on one key (see the counterexample; a split value embedding a
brace can likewise imitate a panel segment). -/
theorem getSeriesKey_injective_on (g1 g2 : String) (f1 f2 : SeriesKeyFields)
    (hc1 : C1Fields g1 f1) (hc2 : C1Fields g2 f2) :
    getSeriesKey f1 g1 = getSeriesKey f2 g2 ↔
      (g1 = g2 ∧ f1.specId = f2.specId ∧ f1.yAccessor = f2.yAccessor ∧
        f1.splitAccessors.Perm f2.splitAccessors ∧
        f1.smVerticalAccessorValue = f2.smVerticalAccessorValue ∧
        f1.smHorizontalAccessorValue = f2.smHorizontalAccessorValue) := by
  obtain ⟨hg1, hsid1, ⟨ys1, hy1, hyb1⟩, hsplit1, hnod1, hpv1, hph1⟩ := hc1
  obtain ⟨hg2, hsid2, ⟨ys2, hy2, hyb2⟩, hsplit2, hnod2, hpv2, hph2⟩ := hc2
  constructor
  · intro h
    have hd := congrArg String.data h
    rw [key_data, key_data] at hd
    have hd1 := List.append_cancel_left hd
    obtain ⟨eg, hd2⟩ := append_sep_inj ('\x7d' : Char) g1.data _ g2.data _
      (noBrace_not_mem _ hg1) (noBrace_not_mem _ hg2) hd1
    have hd3 := List.append_cancel_left hd2
    obtain ⟨esid, hd4⟩ := append_sep_inj ('\x7d' : Char) f1.specId.data _
      f2.specId.data _ (noBrace_not_mem _ hsid1) (noBrace_not_mem _ hsid2) hd3
    have hd5 := List.append_cancel_left hd4
    have hyr1 : f1.yAccessor.render = ys1 := by rw [hy1]; rfl
    have hyr2 : f2.yAccessor.render = ys2 := by rw [hy2]; rfl
    rw [hyr1, hyr2] at hd5
    obtain ⟨eya, hd6⟩ := append_sep_inj ('\x7d' : Char) ys1.data _ ys2.data _
      (noBrace_not_mem _ hyb1) (noBrace_not_mem _ hyb2) hd5
    have hd7 := List.append_cancel_left hd6
    obtain ⟨ej, hd8⟩ := append_sep_inj ('\x7d' : Char) (joinedAcc f1).data _
      (joinedAcc f2).data _ (joinedAcc_noBrace f1 hsplit1)
      (joinedAcc_noBrace f2 hsplit2) hd7
    have hjoin : joinSep "|" ((jsSortWith splitCmp f1.splitAccessors).map partFn)
        = joinSep "|" ((jsSortWith splitCmp f2.splitAccessors).map partFn) := by
      rw [← joinedAcc_eq, ← joinedAcc_eq]
      exact string_eq_of_data_eq _ _ ej
    have hparts := joinSep_bar_inj _ _ (parts_good f1 hsplit1)
      (parts_good f2 hsplit2) hjoin
    have hsorted : jsSortWith splitCmp f1.splitAccessors =
        jsSortWith splitCmp f2.splitAccessors :=
      map_inj_on partFn goodSplitEntry _ _
        (fun kv hkv => hsplit1 kv ((jsSortWith_perm _ _).mem_iff.mp hkv))
        (fun kv hkv => hsplit2 kv ((jsSortWith_perm _ _).mem_iff.mp hkv))
        part_inj hparts
    have hp1 : (jsSortWith splitCmp f1.splitAccessors).Perm
        f2.splitAccessors := by
      rw [hsorted]
      exact jsSortWith_perm _ _
    have htail : smVSeg f1.smVerticalAccessorValue ++
        smHSeg f1.smHorizontalAccessorValue =
        smVSeg f2.smVerticalAccessorValue ++
          smHSeg f2.smHorizontalAccessorValue :=
      string_eq_of_data_eq _ _ hd8
    obtain ⟨epv, eph⟩ := sm_tail_inj _ _ _ _ hpv1 hph1 hpv2 hph2 htail
    exact ⟨string_eq_of_data_eq _ _ eg, string_eq_of_data_eq _ _ esid,
      by rw [hy1, hy2, string_eq_of_data_eq _ _ eya],
      (jsSortWith_perm splitCmp f1.splitAccessors).symm.trans hp1, epv, eph⟩
  · rintro ⟨rfl, e2, e3, e4, e5, e6⟩
    have hsorted := sorted_eq_of_perm f1 f2 hsplit1 hsplit2 hnod1 e4
    have hja : joinedAcc f1 = joinedAcc f2 := by
      rw [joinedAcc_eq, joinedAcc_eq, hsorted]
    rw [show getSeriesKey f1 g1 = "groupId\x7b" ++ g1 ++ "\x7dspec\x7b" ++
        f1.specId ++ "\x7dyAccessor\x7b" ++ f1.yAccessor.render ++
        "\x7dsplitAccessors\x7b" ++ joinedAcc f1 ++ "\x7d" ++
        smVSeg f1.smVerticalAccessorValue ++
        smHSeg f1.smHorizontalAccessorValue from rfl,
      show getSeriesKey f2 g1 = "groupId\x7b" ++ g1 ++ "\x7dspec\x7b" ++
        f2.specId ++ "\x7dyAccessor\x7b" ++ f2.yAccessor.render ++
        "\x7dsplitAccessors\x7b" ++ joinedAcc f2 ++ "\x7d" ++
        smVSeg f2.smVerticalAccessorValue ++
        smHSeg f2.smHorizontalAccessorValue from rfl,
      e2, e3, hja, e5, e6]

/-- The split map is joined with unescaped `key-value` and `|`
separators: a single entry whose value embeds them collides with a
two-entry map, although the two identifiers differ in their split
fields (they are not permutations of each other). -/
theorem getSeriesKey_collision_counterexample :
    getSeriesKey ⟨"s", PrimVal.str "y",
        [(PrimVal.str "a", PrimVal.str "b|c-d")], none, none⟩ "g" =
      getSeriesKey ⟨"s", PrimVal.str "y",
        [(PrimVal.str "a", PrimVal.str "b"),
          (PrimVal.str "c", PrimVal.str "d")], none, none⟩ "g" ∧
    ¬ ([(PrimVal.str "a", PrimVal.str "b|c-d")] :
        List (PrimVal × PrimVal)).Perm
      [(PrimVal.str "a", PrimVal.str "b"), (PrimVal.str "c", PrimVal.str "d")] :=
  ⟨rfl, by decide⟩

/-- A restricted-class identifier with two split entries. -/
def w1 : SeriesKeyFields :=
  ⟨"s", PrimVal.str "y",
    [(PrimVal.str "a", PrimVal.str "1"), (PrimVal.str "b", PrimVal.str "2")],
    some (PrimVal.str "v"), none⟩

/-- The same identifier with the split entries inserted in the other
order. -/
def w2 : SeriesKeyFields :=
  ⟨"s", PrimVal.str "y",
    [(PrimVal.str "b", PrimVal.str "2"), (PrimVal.str "a", PrimVal.str "1")],
    some (PrimVal.str "v"), none⟩

theorem getSeriesKey_injective_on_witness :
    C1Fields "g" w1 ∧ C1Fields "g" w2 ∧
      (getSeriesKey w1 "g" = getSeriesKey w2 "g" ↔
        ("g" = "g" ∧ w1.specId = w2.specId ∧ w1.yAccessor = w2.yAccessor ∧
          w1.splitAccessors.Perm w2.splitAccessors ∧
          w1.smVerticalAccessorValue = w2.smVerticalAccessorValue ∧
          w1.smHorizontalAccessorValue = w2.smHorizontalAccessorValue)) := by
  have hc1 : C1Fields "g" w1 := by
    refine ⟨by decide, by decide, ⟨"y", rfl, by decide⟩, ?_, by decide,
      ⟨by decide, by decide⟩, trivial⟩
    intro kv hkv
    rcases List.mem_cons.mp hkv with rfl | hkv2
    · exact ⟨"a", "1", rfl, rfl, by decide, by decide⟩
    · rcases List.mem_cons.mp hkv2 with rfl | h3
      · exact ⟨"b", "2", rfl, rfl, by decide, by decide⟩
      · exact absurd h3 (by simp)
  have hc2 : C1Fields "g" w2 := by
    refine ⟨by decide, by decide, ⟨"y", rfl, by decide⟩, ?_, by decide,
      ⟨by decide, by decide⟩, trivial⟩
    intro kv hkv
    rcases List.mem_cons.mp hkv with rfl | hkv2
    · exact ⟨"b", "2", rfl, rfl, by decide, by decide⟩
    · rcases List.mem_cons.mp hkv2 with rfl | h3
      · exact ⟨"a", "1", rfl, rfl, by decide, by decide⟩
      · exact absurd h3 (by simp)
  exact ⟨hc1, hc2, getSeriesKey_injective_on "g" "g" w1 w2 hc1 hc2⟩
